import Mathlib

/-!
Verification development for the narrio document-to-audiobook converter.

The Python sources are shallowly embedded as executable Lean functions:
strings become `List Char` / `String`, the in-memory job and book
registries become explicit state values, worker control flow becomes
state-transformer functions over explicit outcome scenarios, and the
per-request thread pool of the convert-all endpoint becomes a small
labelled transition system.  Machine integers do not overflow in any of
the modelled code paths, so `Nat`/`Int`/`ℚ` are used directly.

Python semantics notes used throughout:
* `str.strip` / `\s` / `str.split()` whitespace is modelled by `pySpace`,
  restricted to the ASCII whitespace characters; none of the modelled
  repository strings contain non-ASCII whitespace.
* `re.sub` scans the original string left to right for non-overlapping
  matches; lookbehind/lookahead inspect the original string.  The
  embedded scanners mirror this.
* String-consuming scanners are written with an explicit fuel argument
  (initialised to the string length, which strictly bounds the number of
  recursive steps) so that they are structurally recursive and evaluate
  inside `decide`.
-/

namespace Narrio

set_option maxRecDepth 40000

/-- Python whitespace as used by `str.strip`, `str.split()` and `\s`
(restricted to the ASCII whitespace characters). -/
def pySpace (c : Char) : Bool :=
  c == ' ' || c == '\t' || c == '\n' || c == '\r' ||
  c == Char.ofNat 11 || c == Char.ofNat 12

/-- Drop trailing characters satisfying `p` (the right half of `str.strip`). -/
def dropTrailWhile (p : Char → Bool) : List Char → List Char
  | [] => []
  | c :: rest =>
    match dropTrailWhile p rest with
    | [] => if p c then [] else [c]
    | r => c :: r

/-- Python `str.strip()`. -/
def pyStrip (l : List Char) : List Char :=
  dropTrailWhile pySpace (l.dropWhile pySpace)

/-- Python `str.strip()` on `String`. -/
def pyStripS (s : String) : String := ⟨pyStrip s.data⟩

/-- Python `str.isdigit()` (restricted to ASCII digits, the only digits
appearing in the modelled inputs). -/
def pyIsDigit (l : List Char) : Bool := !l.isEmpty && l.all Char.isDigit

/-- Value of a decimal digit string, as Python `int(s)` on a digit-only string. -/
def digitsToNat (l : List Char) : Nat :=
  l.foldl (fun a c => a * 10 + (c.toNat - 48)) 0

/-!  ## Number parsing (`src/extractors/chapter_splitter.py`)  -/

/-- `WORD_TO_NUM` from `chapter_splitter.py`. -/
def wordToNum : List (String × Nat) :=
  [("one", 1), ("two", 2), ("three", 3), ("four", 4), ("five", 5),
   ("six", 6), ("seven", 7), ("eight", 8), ("nine", 9), ("ten", 10),
   ("eleven", 11), ("twelve", 12), ("thirteen", 13), ("fourteen", 14),
   ("fifteen", 15), ("sixteen", 16), ("seventeen", 17), ("eighteen", 18),
   ("nineteen", 19), ("twenty", 20), ("twenty-one", 21), ("twenty-two", 22),
   ("twenty-three", 23), ("twenty-four", 24), ("twenty-five", 25),
   ("twenty-six", 26), ("twenty-seven", 27), ("twenty-eight", 28),
   ("twenty-nine", 29), ("thirty", 30)]

/-- `ROMAN_VALUES` from `chapter_splitter.py`. -/
def romanVal (c : Char) : Option Nat :=
  if c == 'I' then some 1 else if c == 'V' then some 5
  else if c == 'X' then some 10 else if c == 'L' then some 50
  else if c == 'C' then some 100 else if c == 'D' then some 500
  else if c == 'M' then some 1000 else none

/-- `_roman_to_int` from `chapter_splitter.py`: uppercase and strip, require
every character to be a Roman digit, scan from the right subtracting a value
that is smaller than its right neighbour, and require `0 < total < 200`. -/
def romanToInt (s : List Char) : Option Nat :=
  let t := pyStrip (s.map Char.toUpper)
  if t.isEmpty then none
  else if t.all (fun c => (romanVal c).isSome) then
    let acc := t.reverse.foldl
      (fun (a : Int × Int) c =>
        let v : Int := ((romanVal c).getD 0 : Nat)
        (if v < a.2 then a.1 - v else a.1 + v, v))
      (0, 0)
    if 0 < acc.1 ∧ acc.1 < 200 then some acc.1.toNat else none
  else none

/-- Normalise the Unicode hyphens U+2010 / U+2011 to `-`, as the
`.replace("‐", "-").replace("‑", "-")` calls in `_parse_number`. -/
def hyphenNorm (c : Char) : Char :=
  if c == Char.ofNat 0x2010 || c == Char.ofNat 0x2011 then '-' else c

/-- `_parse_number` from `chapter_splitter.py`: strip; a digit string parses
as its decimal value; otherwise lowercase (with hyphen normalisation) and
look the word up in `WORD_TO_NUM`; otherwise try the Roman-numeral parser. -/
def parseNumber (s : String) : Option Nat :=
  let t := pyStrip s.data
  if pyIsDigit t then some (digitsToNat t)
  else
    let low : String := ⟨(t.map Char.toLower).map hyphenNorm⟩
    match wordToNum.lookup low with
    | some n => some n
    | none => romanToInt t

/-- Modelled from the spec: `int_to_word`, the English word form used by the
spec's round-trip law for 1..30; the function itself is test vocabulary and
is not present under src/. -/
def intToWord (n : Nat) : String :=
  match n with
  | 1 => "one" | 2 => "two" | 3 => "three" | 4 => "four" | 5 => "five"
  | 6 => "six" | 7 => "seven" | 8 => "eight" | 9 => "nine" | 10 => "ten"
  | 11 => "eleven" | 12 => "twelve" | 13 => "thirteen" | 14 => "fourteen"
  | 15 => "fifteen" | 16 => "sixteen" | 17 => "seventeen" | 18 => "eighteen"
  | 19 => "nineteen" | 20 => "twenty" | 21 => "twenty-one" | 22 => "twenty-two"
  | 23 => "twenty-three" | 24 => "twenty-four" | 25 => "twenty-five"
  | 26 => "twenty-six" | 27 => "twenty-seven" | 28 => "twenty-eight"
  | 29 => "twenty-nine" | 30 => "thirty" | _ => ""

/-- Units digit of the standard Roman-numeral form. -/
def romanOnes : Nat → List Char
  | 1 => ['I'] | 2 => ['I', 'I'] | 3 => ['I', 'I', 'I'] | 4 => ['I', 'V']
  | 5 => ['V'] | 6 => ['V', 'I'] | 7 => ['V', 'I', 'I']
  | 8 => ['V', 'I', 'I', 'I'] | 9 => ['I', 'X'] | _ => []

/-- Modelled from the spec: `int_to_roman`, the standard Roman-numeral form
for 1..30; the function itself is test vocabulary and is not present under
src/. -/
def intToRoman (n : Nat) : String :=
  ⟨(List.replicate (n / 10) ['X']).flatten ++ romanOnes (n % 10)⟩

/-- Decimal digit string of a natural number, with fuel. -/
def decimalDigitsF : Nat → Nat → List Char
  | 0, _ => []
  | f + 1, n =>
    if n < 10 then [Char.ofNat (48 + n)]
    else decimalDigitsF f (n / 10) ++ [Char.ofNat (48 + n % 10)]

/-- Python `str(n)` for a natural number. -/
def natToDecimal (n : Nat) : String := ⟨decimalDigitsF (n + 1) n⟩

/-- C9: for every integer n with 1 ≤ n ≤ 30, `_parse_number` recovers n from
the English word form (including hyphenated forms), from the standard
Roman-numeral form, and from the decimal digit string. -/
theorem parse_number_roundtrip (n : Nat) (h1 : 1 ≤ n) (h2 : n ≤ 30) :
    parseNumber (intToWord n) = some n ∧
    parseNumber (intToRoman n) = some n ∧
    parseNumber (natToDecimal n) = some n := by
  have H : ∀ m : Nat, m < 31 → 1 ≤ m →
      parseNumber (intToWord m) = some m ∧
      parseNumber (intToRoman m) = some m ∧
      parseNumber (natToDecimal m) = some m := by decide
  exact H n (by omega) h1

/-- C9 witness: the round-trip law instantiated at n = 21. -/
theorem parse_number_roundtrip_witness :
    parseNumber (intToWord 21) = some 21 ∧
    parseNumber (intToRoman 21) = some 21 ∧
    parseNumber (natToDecimal 21) = some 21 :=
  parse_number_roundtrip 21 (by decide) (by decide)

/-!  ## Python `str.split(sep)` with a non-empty separator  -/

/-- Consume `sep` as a leading run of `l`; return the remainder on success. -/
def consumeSep : List Char → List Char → Option (List Char)
  | [], r => some r
  | _ :: _, [] => none
  | s :: ss, c :: cs => if c == s then consumeSep ss cs else none

/-- Prepend a character to the first piece of a split result. -/
def headCons (c : Char) : List (List Char) → List (List Char)
  | [] => [[c]]
  | p :: ps => (c :: p) :: ps

/-- Python `str.split(sep)` for the non-empty separator `s0 :: ss`:
scan left to right for non-overlapping separator occurrences, cutting a
piece at each one.  `f` is fuel; every recursive call strictly shrinks the
remaining list, so fuel `l.length` always suffices. -/
def splitSeqF (s0 : Char) (ss : List Char) : Nat → List Char → List (List Char)
  | _, [] => [[]]
  | 0, l => [l]
  | f + 1, c :: rest =>
    if c == s0 then
      match consumeSep ss rest with
      | some r => [] :: splitSeqF s0 ss f r
      | none => headCons c (splitSeqF s0 ss f rest)
    else headCons c (splitSeqF s0 ss f rest)

/-- Python `str.split(sep)` (callers only use non-empty separators). -/
def pySplitSeq (sep l : List Char) : List (List Char) :=
  match sep with
  | [] => [l]
  | s0 :: ss => splitSeqF s0 ss l.length l

/-- Python `sep.join(pieces)`. -/
def joinSep {α : Type} (sep : List α) : List (List α) → List α
  | [] => []
  | [p] => p
  | p :: q :: r => p ++ sep ++ joinSep sep (q :: r)

/-!  ## TTS streaming assembler (`src/tts/engine.py`)  -/

/-- `TTS_PAUSE` from `extractors/__init__.py`. -/
def ttsPauseTok : List Char := "TTSPAUSEBREAK".data

/-- `_SILENT_FRAME` from `tts/engine.py`:
`bytes.fromhex("fff364c4") + b"\x00" * 188`. -/
def silentFrame : List Nat := [0xff, 0xf3, 0x64, 0xc4] ++ List.replicate 188 0

/-- `SILENCE` from `tts/engine.py`: `_SILENT_FRAME * 63`. -/
def silenceBlock : List Nat := (List.replicate 63 silentFrame).flatten

/-- The segment list computed by `convert_to_speech`:
`[s.strip() for s in text.split(TTS_PAUSE) if s.strip()]`. -/
def ttsSegments (text : List Char) : List (List Char) :=
  ((pySplitSeq ttsPauseTok text).map pyStrip).filter (fun s => !s.isEmpty)

/-- The bytes `convert_to_speech` writes to the output file: for each
segment, the synthesised audio of that segment (`synth` abstracts the
external edge-tts stream, concatenating its audio chunks), followed by
`SILENCE` after every segment except the last
(`if idx < len(segments) - 1: f.write(SILENCE)`). -/
def convertFileBytes (synth : List Char → List Nat) (text : List Char) : List Nat :=
  let segs := ttsSegments text
  (segs.enum.map (fun p =>
      synth p.2 ++ if p.1 + 1 < segs.length then silenceBlock else [])).flatten

/-- The enumerate-and-test-last loop of `convert_to_speech` concatenates the
per-segment audio with the silence block interposed between consecutive
segments. -/
theorem enumFlatten_eq_joinSep {α : Type} (sep : List α) (f : List Char → List α)
    (m : Nat) :
    ∀ (segs : List (List Char)) (n : Nat), m = n + segs.length →
      ((List.enumFrom n segs).map (fun p =>
        f p.2 ++ if p.1 + 1 < m then sep else [])).flatten =
      joinSep sep (segs.map f) := by
  intro segs
  induction segs with
  | nil => intro n _; simp [joinSep]
  | cons s rest ih =>
    intro n hm
    simp only [List.enumFrom, List.map_cons, List.flatten_cons]
    cases rest with
    | nil =>
      have : ¬ (n + 1 < m) := by simp at hm; omega
      simp [this, joinSep]
    | cons q r =>
      rw [if_pos (by simp at hm; omega)]
      rw [ih (n + 1) (by simp at hm ⊢; omega)]
      simp [joinSep, List.append_assoc]

/-- The file bytes written by `convert_to_speech` are the per-segment audio
streams joined with the silence block as separator. -/
theorem convertFileBytes_eq (synth : List Char → List Nat) (text : List Char) :
    convertFileBytes synth text = joinSep silenceBlock ((ttsSegments text).map synth) := by
  have h := enumFlatten_eq_joinSep silenceBlock synth
    (ttsSegments text).length (ttsSegments text) 0 (by simp)
  simpa [convertFileBytes, List.enum] using h

/-- C8: for every input text whose split on the sentinel yields at least two
non-empty segments, `convert_to_speech` writes exactly the silence block
between consecutive segments and nowhere else (never after the final
segment), and the silence block is exactly 63 copies of the 192-byte frame
FF F3 64 C4 followed by 188 zero bytes. -/
theorem tts_silence_between_segments (synth : List Char → List Nat) (text : List Char)
    (h : 2 ≤ (ttsSegments text).length) :
    convertFileBytes synth text = joinSep silenceBlock ((ttsSegments text).map synth) ∧
    silenceBlock = (List.replicate 63 silentFrame).flatten ∧
    silentFrame.length = 192 ∧
    silentFrame = [0xff, 0xf3, 0x64, 0xc4] ++ List.replicate 188 0 :=
  ⟨convertFileBytes_eq synth text, rfl, by decide, rfl⟩

/-- C8 witness: the theorem applied to a concrete two-segment text. -/
theorem tts_silence_between_segments_witness :
    convertFileBytes (fun s => [s.length]) "one TTSPAUSEBREAK two".data =
      joinSep silenceBlock
        ((ttsSegments "one TTSPAUSEBREAK two".data).map (fun s => [s.length])) ∧
    silenceBlock = (List.replicate 63 silentFrame).flatten ∧
    silentFrame.length = 192 ∧
    silentFrame = [0xff, 0xf3, 0x64, 0xc4] ++ List.replicate 188 0 :=
  tts_silence_between_segments (fun s => [s.length]) "one TTSPAUSEBREAK two".data (by decide)

/-!  ## Job state and the conversion workers (`src/app.py`)  -/

/-- Job status values stored in the in-memory `jobs` registry. -/
inductive JobStatus
  | processing
  | completed
  | cancelled
  | error
  deriving DecidableEq, Repr

/-- Result of the non-cancelled, non-erroring run of `run_chapter_conversion`
(and of the identically structured completion path of `run_conversion`): an
empty `chapter_text` raises `ValueError`, sending the job to `error` with no
file created; otherwise `convert_to_speech` opens (creates) the output file,
writes the assembled bytes, and the worker marks the job completed and
records the output file name. -/
def runChapterConversion (synth : List Char → List Nat) (chapterText : List Char) :
    JobStatus × Bool × Nat :=
  if (pyStrip chapterText).isEmpty then
    (JobStatus.error, false, 0)
  else
    (JobStatus.completed, true, (convertFileBytes synth chapterText).length)

/-- C3 counterexample: a chapter text that strips to non-empty but splits
into zero non-empty segments (the bare sentinel) reaches `completed` with a
created output file of size 0, contradicting the claimed size > 0. -/
theorem completed_job_zero_size_output :
    (runChapterConversion (fun s => List.replicate s.length 7) "TTSPAUSEBREAK".data).1 =
      JobStatus.completed ∧
    (runChapterConversion (fun s => List.replicate s.length 7) "TTSPAUSEBREAK".data).2.2 = 0 := by
  decide

/-- C3 amended: a job that reaches `completed` always has its output file
created at the recorded path, and the file size is strictly positive
whenever the cleaned text yields at least one non-empty segment and the
synthesiser emits at least one audio byte for every segment. -/
theorem completed_job_output_positive (synth : List Char → List Nat) (text : List Char)
    (h0 : (pyStrip text).isEmpty = false)
    (h1 : ttsSegments text ≠ [])
    (h2 : ∀ s ∈ ttsSegments text, synth s ≠ []) :
    (runChapterConversion synth text).1 = JobStatus.completed ∧
    (runChapterConversion synth text).2.1 = true ∧
    0 < (runChapterConversion synth text).2.2 := by
  refine ⟨by simp [runChapterConversion, h0], by simp [runChapterConversion, h0], ?_⟩
  have hsize : (runChapterConversion synth text).2.2 =
      (convertFileBytes synth text).length := by
    simp [runChapterConversion, h0]
  rw [hsize, convertFileBytes_eq]
  obtain ⟨s, rest, hsr⟩ := List.exists_cons_of_ne_nil h1
  have hpos : 0 < (synth s).length :=
    List.length_pos.mpr (h2 s (by rw [hsr]; exact List.mem_cons_self _ _))
  rw [hsr]
  cases rest with
  | nil => simpa [joinSep] using hpos
  | cons q r => simp [joinSep]; omega

/-- C3 witness for the amended theorem: a one-segment text with non-empty
synthesised audio. -/
theorem completed_job_output_positive_witness :
    (runChapterConversion (fun s => s.map Char.toNat) "hello".data).1 =
      JobStatus.completed ∧
    (runChapterConversion (fun s => s.map Char.toNat) "hello".data).2.1 = true ∧
    0 < (runChapterConversion (fun s => s.map Char.toNat) "hello".data).2.2 :=
  completed_job_output_positive (fun s => s.map Char.toNat) "hello".data
    (by decide) (by decide) (by decide)

/-!  ## `run_conversion` cleanup behaviour (C2)  -/

/-- Exception kinds distinguished by `run_conversion`'s except arms. -/
inductive ExcKind
  | interrupted
  | other
  deriving DecidableEq, Repr

/-- Job status plus the two files a single-file conversion worker touches. -/
structure FsJob where
  status : JobStatus
  uploadOnDisk : Bool
  outputOnDisk : Bool
  deriving DecidableEq, Repr

/-- State when `run_conversion` starts: job processing, upload saved, no
output yet. -/
def initialFsJob : FsJob :=
  { status := JobStatus.processing, uploadOnDisk := true, outputOnDisk := false }

/-- Where a run of `run_conversion` leaves the normal path: completion, or an
`InterruptedError` (cancellation) or other exception raised before or after
`convert_to_speech` has created the output file. -/
inductive RunOutcome
  | success
  | cancelBeforeOutput
  | cancelAfterPartial
  | errorBeforeOutput
  | errorAfterPartial
  deriving DecidableEq, Repr

/-- The try-body of `run_conversion`: on success the output file exists and
the job is marked completed; otherwise the body stops with the raised
exception, with the output file on disk iff synthesis had already started. -/
def tryBody : RunOutcome → FsJob → FsJob × Option ExcKind
  | RunOutcome.success, s =>
    ({ s with outputOnDisk := true, status := JobStatus.completed }, none)
  | RunOutcome.cancelBeforeOutput, s => (s, some ExcKind.interrupted)
  | RunOutcome.cancelAfterPartial, s =>
    ({ s with outputOnDisk := true }, some ExcKind.interrupted)
  | RunOutcome.errorBeforeOutput, s => (s, some ExcKind.other)
  | RunOutcome.errorAfterPartial, s =>
    ({ s with outputOnDisk := true }, some ExcKind.other)

/-- The except arms of `run_conversion`: `except InterruptedError` marks the
job cancelled and removes the partial output; `except Exception` marks the
job errored (unless already cancelled) and removes nothing. -/
def exceptArms (s : FsJob) : Option ExcKind → FsJob
  | none => s
  | some ExcKind.interrupted =>
    { s with status := JobStatus.cancelled, outputOnDisk := false }
  | some ExcKind.other =>
    if s.status = JobStatus.cancelled then s else { s with status := JobStatus.error }

/-- The finally arm of `run_conversion`: always remove the uploaded file. -/
def finallyArm (s : FsJob) : FsJob := { s with uploadOnDisk := false }

/-- `run_conversion` as a state transformer over the outcome scenarios. -/
def runConversionFinal (o : RunOutcome) : FsJob :=
  finallyArm (exceptArms (tryBody o initialFsJob).1 (tryBody o initialFsJob).2)

/-- C2 counterexample: a synthesis error raised after partial audio has been
written leaves the job in the terminal `error` state with the partial output
file still on disk. -/
theorem error_leaves_partial_output :
    (runConversionFinal RunOutcome.errorAfterPartial).status = JobStatus.error ∧
    (runConversionFinal RunOutcome.errorAfterPartial).outputOnDisk = true := by
  decide

/-- C2 amended: on every terminal transition the worker deletes its temporary
upload, and it deletes the partial output on a transition to `cancelled`; the
error arm, however, does not delete a partial output file. -/
theorem worker_cleanup_behaviour (o : RunOutcome) :
    (runConversionFinal o).uploadOnDisk = false ∧
    ((runConversionFinal o).status = JobStatus.cancelled →
      (runConversionFinal o).outputOnDisk = false) := by
  cases o <;> simp [runConversionFinal, tryBody, exceptArms, finallyArm, initialFsJob]

/-- C2 witness for the amended theorem: cancellation after partial audio
deletes both files. -/
theorem worker_cleanup_behaviour_witness :
    (runConversionFinal RunOutcome.cancelAfterPartial).uploadOnDisk = false ∧
    ((runConversionFinal RunOutcome.cancelAfterPartial).status = JobStatus.cancelled →
      (runConversionFinal RunOutcome.cancelAfterPartial).outputOnDisk = false) :=
  worker_cleanup_behaviour RunOutcome.cancelAfterPartial

/-!  ## `api_cancel_book` (C10)  -/

/-- Chapter status values stored in a book record. -/
inductive ChapterStatus
  | pending
  | processing
  | completed
  | cancelled
  | error
  deriving DecidableEq, Repr

/-- A chapter entry of a book record: linked job id and book-record status. -/
structure BookChapter where
  jobId : Option String
  status : ChapterStatus
  deriving DecidableEq, Repr

/-- The in-memory `jobs` registry, keyed by job id. -/
abbrev JobMap := String → Option JobStatus

/-- The job-registry update of one `api_cancel_book` loop iteration: the
linked job is flipped to cancelled only when it is currently processing. -/
def cancelJobIfProcessing (jobs : JobMap) (j : String) : JobMap :=
  fun k =>
    if k = j then
      match jobs j with
      | some JobStatus.processing => some JobStatus.cancelled
      | v => v
    else jobs k

/-- `api_cancel_book`'s loop over the book's chapters: chapters without a
linked job id are skipped (`continue`); for every chapter with a job id the
job is cancelled iff it was processing, and the chapter's book-record status
is set to cancelled unconditionally. -/
def cancelBook : List BookChapter → JobMap → List BookChapter × JobMap
  | [], jobs => ([], jobs)
  | ch :: rest, jobs =>
    match ch.jobId with
    | none =>
      let r := cancelBook rest jobs
      (ch :: r.1, r.2)
    | some j =>
      let r := cancelBook rest (cancelJobIfProcessing jobs j)
      ({ ch with status := ChapterStatus.cancelled } :: r.1, r.2)

/-- Unfolding equation for `cancelBook` on a chapter without a job id. -/
theorem cancelBook_cons_none (ch : BookChapter) (rest : List BookChapter)
    (jobs : JobMap) (hid : ch.jobId = none) :
    cancelBook (ch :: rest) jobs =
      (ch :: (cancelBook rest jobs).1, (cancelBook rest jobs).2) := by
  simp [cancelBook, hid]

/-- Unfolding equation for `cancelBook` on a chapter with a job id. -/
theorem cancelBook_cons_some (ch : BookChapter) (rest : List BookChapter)
    (jobs : JobMap) (j : String) (hid : ch.jobId = some j) :
    cancelBook (ch :: rest) jobs =
      ({ ch with status := ChapterStatus.cancelled } ::
          (cancelBook rest (cancelJobIfProcessing jobs j)).1,
        (cancelBook rest (cancelJobIfProcessing jobs j)).2) := by
  simp [cancelBook, hid]

/-- The cancel-book loop never changes a job that is not processing. -/
theorem cancelBook_preserves_nonprocessing :
    ∀ (chs : List BookChapter) (jobs : JobMap) (j : String) (s : JobStatus),
      jobs j = some s → s ≠ JobStatus.processing → (cancelBook chs jobs).2 j = some s := by
  intro chs
  induction chs with
  | nil => intro jobs j s hj _; simpa [cancelBook] using hj
  | cons ch rest ih =>
    intro jobs j s hj hs
    cases hid : ch.jobId with
    | none =>
      rw [cancelBook_cons_none ch rest jobs hid]
      exact ih jobs j s hj hs
    | some j0 =>
      rw [cancelBook_cons_some ch rest jobs j0 hid]
      have hj' : cancelJobIfProcessing jobs j0 j = some s := by
        by_cases hjj : j = j0
        · subst hjj
          simp only [cancelJobIfProcessing, if_pos rfl, hj]
          cases s <;> simp_all
        · simp [cancelJobIfProcessing, hjj, hj]
      exact ih (cancelJobIfProcessing jobs j0) j s hj' hs

/-- The cancel-book loop cancels a processing job linked from any chapter. -/
theorem cancelBook_cancels :
    ∀ (chs : List BookChapter) (jobs : JobMap) (i : Nat) (ch : BookChapter) (j : String),
      chs[i]? = some ch → ch.jobId = some j → jobs j = some JobStatus.processing →
      (cancelBook chs jobs).2 j = some JobStatus.cancelled := by
  intro chs
  induction chs with
  | nil => intro jobs i ch j h; simp at h
  | cons c0 rest ih =>
    intro jobs i ch j hi hj hp
    cases i with
    | zero =>
      simp at hi
      subst hi
      rw [cancelBook_cons_some c0 rest jobs j hj]
      have h1 : cancelJobIfProcessing jobs j j = some JobStatus.cancelled := by
        simp [cancelJobIfProcessing, hp]
      exact cancelBook_preserves_nonprocessing rest (cancelJobIfProcessing jobs j) j
        JobStatus.cancelled h1 (by simp)
    | succ i' =>
      simp at hi
      cases hid : c0.jobId with
      | none =>
        rw [cancelBook_cons_none c0 rest jobs hid]
        exact ih jobs i' ch j hi hj hp
      | some j0 =>
        rw [cancelBook_cons_some c0 rest jobs j0 hid]
        by_cases hjj : j = j0
        · subst hjj
          have h1 : cancelJobIfProcessing jobs j j = some JobStatus.cancelled := by
            simp [cancelJobIfProcessing, hp]
          exact cancelBook_preserves_nonprocessing rest (cancelJobIfProcessing jobs j) j
            JobStatus.cancelled h1 (by simp)
        · have hp' : cancelJobIfProcessing jobs j0 j = some JobStatus.processing := by
            simp [cancelJobIfProcessing, hjj, hp]
          exact ih (cancelJobIfProcessing jobs j0) i' ch j hi hj hp'

/-- The chapter list after cancel-book: every chapter carrying a job id is
stamped cancelled, the rest are untouched; independent of the job registry. -/
theorem cancelBook_chapters :
    ∀ (chs : List BookChapter) (jobs : JobMap),
      (cancelBook chs jobs).1 = chs.map (fun ch =>
        match ch.jobId with
        | none => ch
        | some _ => { ch with status := ChapterStatus.cancelled }) := by
  intro chs
  induction chs with
  | nil => intro jobs; simp [cancelBook]
  | cons ch rest ih =>
    intro jobs
    cases hid : ch.jobId with
    | none =>
      rw [cancelBook_cons_none ch rest jobs hid]
      simp [hid, ih]
    | some j0 =>
      rw [cancelBook_cons_some ch rest jobs j0 hid]
      simp [hid, ih]

/-- C10: for every chapter of a book with a linked job id, `api_cancel_book`
sets that chapter's book-record status to cancelled unconditionally — even
when the linked job is already terminal — while the linked job's status is
changed to cancelled only if it was processing; in particular a completed
linked job remains completed while its chapter shows cancelled. -/
theorem cancel_book_chapter_vs_job (chs : List BookChapter) (jobs : JobMap)
    (i : Nat) (ch : BookChapter) (j : String)
    (hch : chs[i]? = some ch) (hj : ch.jobId = some j) :
    (cancelBook chs jobs).1[i]? = some { ch with status := ChapterStatus.cancelled } ∧
    (jobs j = some JobStatus.processing →
      (cancelBook chs jobs).2 j = some JobStatus.cancelled) ∧
    (∀ s, jobs j = some s → s ≠ JobStatus.processing →
      (cancelBook chs jobs).2 j = some s) := by
  refine ⟨?_, fun hp => cancelBook_cancels chs jobs i ch j hch hj hp,
    fun s hs hns => cancelBook_preserves_nonprocessing chs jobs j s hs hns⟩
  rw [cancelBook_chapters chs jobs]
  simp [List.getElem?_map, hch, hj]

/-- C10 witness: a two-chapter book whose second chapter's job is already
completed; after cancel-book the chapter reads cancelled while the job stays
completed. -/
theorem cancel_book_chapter_vs_job_witness :
    (cancelBook
        [{ jobId := some "a", status := ChapterStatus.processing },
         { jobId := some "b", status := ChapterStatus.completed }]
        (fun k => if k = "a" then some JobStatus.processing
          else if k = "b" then some JobStatus.completed else none)).1[1]? =
      some { jobId := some "b", status := ChapterStatus.cancelled } ∧
    ((fun k => if k = "a" then some JobStatus.processing
        else if k = "b" then some JobStatus.completed else none : JobMap) "b" =
          some JobStatus.processing →
      (cancelBook
        [{ jobId := some "a", status := ChapterStatus.processing },
         { jobId := some "b", status := ChapterStatus.completed }]
        (fun k => if k = "a" then some JobStatus.processing
          else if k = "b" then some JobStatus.completed else none)).2 "b" =
        some JobStatus.cancelled) ∧
    (∀ s, (fun k => if k = "a" then some JobStatus.processing
        else if k = "b" then some JobStatus.completed else none : JobMap) "b" = some s →
      s ≠ JobStatus.processing →
      (cancelBook
        [{ jobId := some "a", status := ChapterStatus.processing },
         { jobId := some "b", status := ChapterStatus.completed }]
        (fun k => if k = "a" then some JobStatus.processing
          else if k = "b" then some JobStatus.completed else none)).2 "b" = some s) :=
  cancel_book_chapter_vs_job
    [{ jobId := some "a", status := ChapterStatus.processing },
     { jobId := some "b", status := ChapterStatus.completed }]
    (fun k => if k = "a" then some JobStatus.processing
      else if k = "b" then some JobStatus.completed else none)
    1 { jobId := some "b", status := ChapterStatus.completed } "b" (by decide) rfl

/-!  ## Progress reporting (C7)  -/

/-- Round a rational to one decimal place, as `round(percent, 1)` in
`update_progress`.  (Python's float `round` uses round-half-even and differs
from this only at exact half-tie values; every statement below uses only
monotonicity of the rounding, which both variants satisfy.) -/
def round1 (q : ℚ) : ℚ := (⌊q * 10 + 1 / 2⌋ : ℚ) / 10

/-- Running value of `total_bytes` after each received audio chunk. -/
def runningTotals (acc : Nat) : List Nat → List Nat
  | [] => []
  | c :: rest => (acc + c) :: runningTotals (acc + c) rest

/-- The percentage reported by `convert_to_speech` after an audio chunk:
`20 + min(total_bytes / estimated_size, 1.0) * 75` with
`estimated_size = max(len(text) * 150, 1)`. -/
def chunkPct (textLen : Nat) (b : Nat) : ℚ :=
  20 + min ((b : ℚ) / ((max (textLen * 150) 1 : Nat) : ℚ)) 1 * 75

/-- All chunk percentages of a conversion, in the order they are reported. -/
def chunkPercents (textLen : Nat) (chunks : List Nat) : List ℚ :=
  (runningTotals 0 chunks).map (chunkPct textLen)

/-- The values written to the job's progress field during a `run_conversion`
run, before the final completion write: 5 ("Extracting text..."),
20 ("Text extracted"), one write per audio chunk, then 95 ("Finalizing
audio..."), each rounded to one decimal by `update_progress`. -/
def conversionWrites (textLen : Nat) (chunks : List Nat) : List ℚ :=
  round1 5 :: round1 20 :: ((chunkPercents textLen chunks).map round1 ++ [round1 95])

/-- All progress values an external observer can read over a successful job
lifetime: 0 at job creation, the worker's writes, then 100 at completion. -/
def successTrace (textLen : Nat) (chunks : List Nat) : List ℚ :=
  0 :: (conversionWrites textLen chunks ++ [100])

/-- Progress values observed when the worker notices cancellation at its
(k+1)-th `update_progress` call: the first k writes, then the cancellation
arm's `jobs[job_id]["progress"] = 0`. -/
def cancelTrace (textLen : Nat) (chunks : List Nat) (k : Nat) : List ℚ :=
  0 :: ((conversionWrites textLen chunks).take k ++ [0])

/-- Rounding to one decimal is monotone. -/
theorem round1_mono {q r : ℚ} (h : q ≤ r) : round1 q ≤ round1 r := by
  unfold round1
  rw [div_le_div_iff_of_pos_right (by norm_num : (0:ℚ) < 10)]
  exact_mod_cast Int.floor_le_floor (by linarith)

/-- The estimate denominator is positive. -/
theorem estimate_pos (textLen : Nat) : (0 : ℚ) < ((max (textLen * 150) 1 : Nat) : ℚ) := by
  have h : (1 : Nat) ≤ max (textLen * 150) 1 := Nat.le_max_right _ _
  exact_mod_cast Nat.lt_of_lt_of_le Nat.zero_lt_one h

/-- The chunk percentage is monotone in the byte total. -/
theorem chunkPct_mono (textLen : Nat) {b b' : Nat} (h : b ≤ b') :
    chunkPct textLen b ≤ chunkPct textLen b' := by
  unfold chunkPct
  have hpos := estimate_pos textLen
  have hb : (b : ℚ) ≤ (b' : ℚ) := by exact_mod_cast h
  gcongr

/-- Every chunk percentage lies in [20, 95]. -/
theorem chunkPct_bounds (textLen b : Nat) :
    20 ≤ chunkPct textLen b ∧ chunkPct textLen b ≤ 95 := by
  unfold chunkPct
  have hpos := estimate_pos textLen
  have h0 : (0:ℚ) ≤ min ((b : ℚ) / ((max (textLen * 150) 1 : Nat) : ℚ)) 1 :=
    le_min (by positivity) (by norm_num)
  have h1 : min ((b : ℚ) / ((max (textLen * 150) 1 : Nat) : ℚ)) 1 ≤ 1 :=
    min_le_right _ _
  constructor <;> nlinarith

/-- The running byte totals form a non-decreasing sequence bounded below by
the starting total. -/
theorem runningTotals_facts (l : List Nat) :
    ∀ a, List.Chain' (· ≤ ·) (runningTotals a l) ∧
      ∀ x ∈ runningTotals a l, a ≤ x := by
  induction l with
  | nil => intro a; simp [runningTotals]
  | cons c rest ih =>
    intro a
    refine ⟨List.chain'_cons'.mpr ⟨?_, (ih (a + c)).1⟩, ?_⟩
    · intro y hy
      have hmem := List.mem_of_mem_head? hy
      have := (ih (a + c)).2 y hmem
      omega
    · intro x hx
      simp only [runningTotals, List.mem_cons] at hx
      rcases hx with rfl | hx
      · omega
      · have := (ih (a + c)).2 x hx
        omega

/-- The reported chunk percentages are non-decreasing and lie in [20, 95]. -/
theorem chunkPercents_facts (textLen : Nat) (chunks : List Nat) :
    List.Chain' (· ≤ ·) (chunkPercents textLen chunks) ∧
      ∀ q ∈ chunkPercents textLen chunks, 20 ≤ q ∧ q ≤ 95 := by
  constructor
  · unfold chunkPercents
    rw [List.chain'_map]
    exact List.Chain'.imp (fun a b h => chunkPct_mono textLen h)
      (runningTotals_facts chunks 0).1
  · intro q hq
    obtain ⟨b, _, rfl⟩ := List.mem_map.mp hq
    exact chunkPct_bounds textLen b

/-- C7 amended: over a successful job lifetime (creation through completion)
the externally observed progress sequence is monotone non-decreasing; only
the cancellation and error arms write a lower value (they reset progress
to 0). -/
theorem progress_monotone_on_success (textLen : Nat) (chunks : List Nat) :
    List.Chain' (· ≤ ·) (successTrace textLen chunks) := by
  have h5 : round1 5 = 5 := by norm_num [round1]
  have h20 : round1 20 = 20 := by norm_num [round1]
  have h95 : round1 95 = 95 := by norm_num [round1]
  obtain ⟨hchain, hbounds⟩ := chunkPercents_facts textLen chunks
  unfold successTrace conversionWrites
  rw [List.cons_append, List.cons_append, List.append_assoc]
  refine List.chain'_cons'.mpr ⟨?_, List.chain'_cons'.mpr ⟨?_, List.chain'_cons'.mpr ⟨?_, ?_⟩⟩⟩
  · intro y hy
    simp at hy
    rw [← hy, h5]; norm_num
  · intro y hy
    simp at hy
    rw [← hy, h5, h20]; norm_num
  · intro y hy
    cases hcp : chunkPercents textLen chunks with
    | nil =>
      rw [hcp] at hy
      simp at hy
      rw [← hy, h20, h95]; norm_num
    | cons p ps =>
      rw [hcp] at hy
      simp at hy
      rw [← hy]
      have hp : 20 ≤ p := (hbounds p (by rw [hcp]; exact List.mem_cons_self _ _)).1
      exact round1_mono hp
  · rw [List.chain'_append]
    refine ⟨?_, ?_, ?_⟩
    · rw [List.chain'_map]
      exact List.Chain'.imp (fun a b h => round1_mono h) hchain
    · refine List.chain'_cons'.mpr ⟨?_, by simp⟩
      intro y hy
      simp at hy
      rw [← hy, h95]; norm_num
    · intro x hx y hy
      simp at hy
      have hxm := List.mem_of_mem_getLast? hx
      obtain ⟨q, hq, rfl⟩ := List.mem_map.mp hxm
      rw [← hy]
      exact round1_mono (hbounds q hq).2

/-- C7 counterexample: a job cancelled right after the 20% write has observed
progress sequence 0, 5, 20, 0, which is not monotone — the transition to
cancelled lowers the observed progress value. -/
theorem progress_not_monotone_on_cancel :
    ¬ List.Chain' (· ≤ ·) (cancelTrace 1 [1] 2) := by
  have h5 : round1 5 = 5 := by norm_num [round1]
  have h20 : round1 20 = 20 := by norm_num [round1]
  intro h
  simp only [cancelTrace, conversionWrites, List.take, List.cons_append,
    List.nil_append, h5, h20] at h
  rw [List.chain'_cons, List.chain'_cons, List.chain'_cons] at h
  have : (20:ℚ) ≤ 0 := h.2.2.1
  norm_num at this

/-!  ## Convert-all concurrency (C1)  -/

/-- Counting abstraction of one convert-all request: the value of the
request-local `threading.Semaphore(MAX_CONCURRENT_CHAPTERS)` created by
`api_convert_all_chapters`, and how many of the request's chapter worker
threads are in each phase of `run_chapter_conversion_throttled`. -/
structure ReqState where
  sem : Nat
  waiting : Nat
  running : Nat
  finished : Nat
  stopped : Nat
  deriving DecidableEq, Repr

/-- A fresh convert-all request: its own semaphore at
`MAX_CONCURRENT_CHAPTERS = 3`, with `n` spawned chapter workers waiting. -/
def freshReq (n : Nat) : ReqState :=
  { sem := 3, waiting := n, running := 0, finished := 0, stopped := 0 }

/-- Interleaving steps of the chapter workers.  Each request owns its own
semaphore: a waiting worker acquires when its request's semaphore is
positive and enters `run_chapter_conversion`; a running worker finishes and
releases in its `finally`; a waiting worker that observes cancellation
returns without acquiring. -/
inductive ConvStep : List ReqState → List ReqState → Prop
  | acquire (s : List ReqState) (j : Nat) (r : ReqState)
      (h : s[j]? = some r) (w : 0 < r.waiting) (p : 0 < r.sem) :
      ConvStep s (s.set j
        { r with sem := r.sem - 1, waiting := r.waiting - 1, running := r.running + 1 })
  | release (s : List ReqState) (j : Nat) (r : ReqState)
      (h : s[j]? = some r) (w : 0 < r.running) :
      ConvStep s (s.set j
        { r with sem := r.sem + 1, running := r.running - 1, finished := r.finished + 1 })
  | cancelWait (s : List ReqState) (j : Nat) (r : ReqState)
      (h : s[j]? = some r) (w : 0 < r.waiting) :
      ConvStep s (s.set j
        { r with waiting := r.waiting - 1, stopped := r.stopped + 1 })

/-- Reachability along converter steps. -/
def ConvReach (s t : List ReqState) : Prop := Relation.ReflTransGen ConvStep s t

/-- Total number of chapter workers currently executing TTS synthesis,
across all convert-all requests in the process. -/
def totalRunning (s : List ReqState) : Nat := (s.map (fun r => r.running)).sum

/-- Per-request semaphore accounting: `sem + running = 3` is preserved by
every step. -/
theorem convReach_invariant (init t : List ReqState)
    (hinit : ∀ r ∈ init, r.sem + r.running = 3)
    (h : ConvReach init t) : ∀ r ∈ t, r.sem + r.running = 3 := by
  induction h with
  | refl => exact hinit
  | tail _ hbc ih =>
    intro r hr
    cases hbc with
    | acquire j r0 h0 w p =>
      rcases List.mem_or_eq_of_mem_set hr with hmem | rfl
      · exact ih r hmem
      · have := ih r0 (List.getElem?_mem h0)
        simp only
        omega
    | release j r0 h0 w =>
      rcases List.mem_or_eq_of_mem_set hr with hmem | rfl
      · exact ih r hmem
      · have := ih r0 (List.getElem?_mem h0)
        simp only
        omega
    | cancelWait j r0 h0 w =>
      rcases List.mem_or_eq_of_mem_set hr with hmem | rfl
      · exact ih r hmem
      · have := ih r0 (List.getElem?_mem h0)
        simp only
        omega

/-- C1 amended: within one convert-all request the capacity-3 semaphore
bounds the request's concurrently running chapter workers by 3 in every
reachable state; the semaphore is constructed per request, so the bound is
per request rather than system-wide. -/
theorem convert_all_bounded_per_request (init t : List ReqState)
    (hinit : ∀ r ∈ init, r.sem + r.running = 3)
    (h : ConvReach init t) :
    ∀ r ∈ t, r.running ≤ 3 := by
  intro r hr
  have := convReach_invariant init t hinit h r hr
  omega

/-- C1 witness for the amended theorem: the bound instantiated at a fresh
five-chapter request. -/
theorem convert_all_bounded_per_request_witness :
    (freshReq 5).running ≤ 3 :=
  convert_all_bounded_per_request [freshReq 5] [freshReq 5]
    (by decide) Relation.ReflTransGen.refl (freshReq 5) (by decide)

/-- C1 counterexample: with two concurrent convert-all requests of two
chapters each, every request has its own capacity-3 semaphore, so a state
with four workers simultaneously inside TTS synthesis is reachable — the
bound of 3 does not hold across requests. -/
theorem semaphore_not_system_wide :
    ∃ t, ConvReach [freshReq 2, freshReq 2] t ∧ 4 ≤ totalRunning t := by
  refine ⟨[⟨1, 0, 2, 0, 0⟩, ⟨1, 0, 2, 0, 0⟩], ?_, by decide⟩
  have s1 : ConvStep [⟨3, 2, 0, 0, 0⟩, ⟨3, 2, 0, 0, 0⟩] [⟨2, 1, 1, 0, 0⟩, ⟨3, 2, 0, 0, 0⟩] := by
    have h := ConvStep.acquire [⟨3, 2, 0, 0, 0⟩, ⟨3, 2, 0, 0, 0⟩] 0
      ⟨3, 2, 0, 0, 0⟩ rfl (by decide) (by decide)
    simpa using h
  have s2 : ConvStep [⟨2, 1, 1, 0, 0⟩, ⟨3, 2, 0, 0, 0⟩] [⟨1, 0, 2, 0, 0⟩, ⟨3, 2, 0, 0, 0⟩] := by
    have h := ConvStep.acquire [⟨2, 1, 1, 0, 0⟩, ⟨3, 2, 0, 0, 0⟩] 0
      ⟨2, 1, 1, 0, 0⟩ rfl (by decide) (by decide)
    simpa using h
  have s3 : ConvStep [⟨1, 0, 2, 0, 0⟩, ⟨3, 2, 0, 0, 0⟩] [⟨1, 0, 2, 0, 0⟩, ⟨2, 1, 1, 0, 0⟩] := by
    have h := ConvStep.acquire [⟨1, 0, 2, 0, 0⟩, ⟨3, 2, 0, 0, 0⟩] 1
      ⟨3, 2, 0, 0, 0⟩ rfl (by decide) (by decide)
    simpa using h
  have s4 : ConvStep [⟨1, 0, 2, 0, 0⟩, ⟨2, 1, 1, 0, 0⟩] [⟨1, 0, 2, 0, 0⟩, ⟨1, 0, 2, 0, 0⟩] := by
    have h := ConvStep.acquire [⟨1, 0, 2, 0, 0⟩, ⟨2, 1, 1, 0, 0⟩] 1
      ⟨2, 1, 1, 0, 0⟩ rfl (by decide) (by decide)
    simpa using h
  have hfresh : [freshReq 2, freshReq 2] = [(⟨3, 2, 0, 0, 0⟩ : ReqState), ⟨3, 2, 0, 0, 0⟩] := by
    decide
  rw [hfresh]
  exact Relation.ReflTransGen.trans (Relation.ReflTransGen.single s1)
    (Relation.ReflTransGen.trans (Relation.ReflTransGen.single s2)
      (Relation.ReflTransGen.trans (Relation.ReflTransGen.single s3)
        (Relation.ReflTransGen.single s4)))

/-!  ## Page text extraction helpers (`chapter_splitter.py`, `pdf_extractor.py`)  -/

/-- Word count of one Python `len(s.split())`: the number of maximal runs of
non-whitespace characters. -/
def wordCountGo (inWord : Bool) : List Char → Nat
  | [] => 0
  | c :: rest =>
    if pySpace c then wordCountGo false rest
    else (if inWord then 0 else 1) + wordCountGo true rest

/-- Python `len(s.split())`. -/
def wordCountS (s : String) : Nat := wordCountGo false s.data

/-- `re.sub(r"  +", " ", s)`: collapse every run of two or more spaces to a
single space (fuel-indexed; fuel `l.length` always suffices). -/
def collapseSpacesF : Nat → List Char → List Char
  | 0, l => l
  | _ + 1, [] => []
  | f + 1, c :: rest =>
    if c == ' ' && rest.head? == some ' ' then
      ' ' :: collapseSpacesF f (rest.dropWhile (fun d => d == ' '))
    else c :: collapseSpacesF f rest

/-- `re.sub(r"  +", " ", s)` on a character list. -/
def collapseSpaces (l : List Char) : List Char := collapseSpacesF l.length l

/-- Python `str.split(sep)` for a single-character separator. -/
def splitChar (sep : Char) : List Char → List (List Char)
  | [] => [[]]
  | c :: rest =>
    if c == sep then [] :: splitChar sep rest
    else headCons c (splitChar sep rest)

/-- The line-grouping loop of `_rejoin_lines`: accumulate stripped non-empty
lines; an empty line flushes the current group as one paragraph. -/
def rejoinGroup (current : List (List Char)) : List (List Char) → List (List (List Char))
  | [] => if current.isEmpty then [] else [current.reverse]
  | ln :: rest =>
    let s := pyStrip ln
    if s.isEmpty then
      if current.isEmpty then rejoinGroup [] rest
      else current.reverse :: rejoinGroup [] rest
    else rejoinGroup (s :: current) rest

/-- `_rejoin_lines` from `pdf_extractor.py`: split into lines, group runs of
non-empty stripped lines into paragraphs joined by single spaces, collapse
double spaces in each paragraph, and join paragraphs with blank lines. -/
def rejoinLines (l : List Char) : List Char :=
  let paragraphs := rejoinGroup [] (splitChar '\n' l)
  joinSep "\n\n".data (paragraphs.map (fun p => collapseSpaces (joinSep [' '] p)))

/-- `_page_text` from `chapter_splitter.py`: strip the page's raw text; empty
pages yield `""`, otherwise the rejoined text. -/
def pageText (raw : String) : String :=
  let r := pyStrip raw.data
  if r.isEmpty then "" else ⟨rejoinLines r⟩

/-- `_pages_text` from `chapter_splitter.py`: the non-empty page texts of the
0-indexed range [s, min e (page count)), joined with blank lines. -/
def pagesText (doc : List String) (s e : Nat) : String :=
  let idxs := List.range' s (min e doc.length - s)
  let parts := idxs.filterMap (fun i =>
    let t := pageText (doc.getD i "")
    if t.isEmpty then none else some t)
  ⟨joinSep "\n\n".data (parts.map String.data)⟩

/-!  ## Chapter records and the PDF detection paths (C4, C5)  -/

/-- Section classification used by the chapter records. -/
inductive SectionType
  | chapter
  | part
  | frontMatter
  | backMatter
  | unknown
  deriving DecidableEq, Repr

/-- A chapter record as produced by the PDF detection paths. -/
structure Chapter where
  index : Nat
  sectionType : SectionType
  chapterNumber : Option Nat
  title : String
  text : String
  pageStart : Nat
  pageEnd : Nat
  wordCount : Nat
  deriving DecidableEq, Repr

/-- A heading boundary detected by PASS 2 (`_detect_heading_boundaries`). -/
structure Boundary where
  page : Nat
  headingText : String
  chapterNumber : Option Nat
  kind : SectionType
  deriving DecidableEq, Repr

/-- Re-indexing loop: `chapters` are numbered by append position. -/
def reindexFrom (i : Nat) : List Chapter → List Chapter
  | [] => []
  | c :: rest => { c with index := i } :: reindexFrom (i + 1) rest

/-- An aligned record as assembled by Step 2 of `_align_toc_to_boundaries`
(start page, chapter number, kind, title).  The claims settled here concern
Step 3, which is modelled below over an arbitrary aligned list. -/
structure AlignedRec where
  startPage : Nat
  chapterNumber : Option Nat
  kind : SectionType
  title : String
  deriving DecidableEq, Repr

instance : IsTotal AlignedRec (fun a b => a.startPage ≤ b.startPage) :=
  ⟨fun _ _ => Nat.le_total _ _⟩

instance : IsTrans AlignedRec (fun a b => a.startPage ≤ b.startPage) :=
  ⟨fun _ _ _ => Nat.le_trans⟩

/-- `aligned.sort(key=lambda x: x["start_page"])`: a stable sort by start
page (Python's sort is stable; any two stable sorts by the same key agree). -/
def alignedSort (l : List AlignedRec) : List AlignedRec :=
  l.insertionSort (fun a b => a.startPage ≤ b.startPage)

/-- The deduplication loop: drop a record whose start page equals the last
kept record's start page. -/
def dedupeGo (last : AlignedRec) : List AlignedRec → List AlignedRec
  | [] => []
  | a :: rest =>
    if a.startPage = last.startPage then dedupeGo last rest
    else a :: dedupeGo a rest

/-- Deduplicate by start page, keeping the first record of each page. -/
def dedupeByStart : List AlignedRec → List AlignedRec
  | [] => []
  | a :: rest => a :: dedupeGo a rest

/-- Pair each aligned record with its end page: the next record's start page,
or the page count for the last record. -/
def withEnds (total : Nat) : List AlignedRec → List (AlignedRec × Nat)
  | [] => []
  | a :: rest =>
    (a, match rest.head? with
        | some b => b.startPage
        | none => total) :: withEnds total rest

/-- One chapter of the alignment path: extract the page range's text and drop
the record when it has fewer than 30 words. -/
def mkAlignedChapter (doc : List String) (a : AlignedRec) (e : Nat) : Option Chapter :=
  let text := pagesText doc a.startPage e
  let wc := wordCountS text
  if wc < 30 then none
  else some { index := 0, sectionType := a.kind, chapterNumber := a.chapterNumber,
              title := a.title, text := text, pageStart := a.startPage + 1,
              pageEnd := e, wordCount := wc }

/-- Step 3 of `_align_toc_to_boundaries`: sort the aligned records by start
page, deduplicate by start page, cut each chapter's page range at the next
record's start (the last runs to the end of the document), drop chapters
with fewer than 30 words, and index the survivors contiguously. -/
def buildAlignedChapters (doc : List String) (aligned : List AlignedRec) : List Chapter :=
  let dd := dedupeByStart (alignedSort aligned)
  reindexFrom 0 ((withEnds doc.length dd).filterMap
    (fun pe => mkAlignedChapter doc pe.1 pe.2))

/-!  ### Outline fallback (`_extract_via_outline`)  -/

/-- `FRONT_MATTER_WORDS` from `chapter_splitter.py`. -/
def frontMatterWords : List String :=
  ["preface", "introduction", "prologue", "foreword",
   "acknowledgments", "acknowledgements", "dedication"]

/-- `BACK_MATTER_WORDS` from `chapter_splitter.py`. -/
def backMatterWords : List String :=
  ["epilogue", "afterword", "conclusion", "bibliography",
   "glossary", "index", "notes", "appendix", "about the author",
   "about the authors", "further reading"]

/-- The front/back-matter keyword test:
`low == word or low.startswith(word + ":") or low.startswith(word + " ")`. -/
def keywordHit (w low : String) : Bool :=
  low == w || low.startsWith (w ++ ":") || low.startsWith (w ++ " ")

/-- Curly quotes to `'` (the `[‘’“”]` substitution). -/
def normalizeQuote (c : Char) : Char :=
  if c == Char.ofNat 0x2018 || c == Char.ofNat 0x2019 ||
     c == Char.ofNat 0x201c || c == Char.ofNat 0x201d then '\'' else c

/-- Dashes to `-` (the `[–—‒]` substitution). -/
def normalizeDash (c : Char) : Char :=
  if c == Char.ofNat 0x2013 || c == Char.ofNat 0x2014 ||
     c == Char.ofNat 0x2012 then '-' else c

/-- `re.sub(r"\s+", " ", s)`: every maximal whitespace run becomes one space. -/
def collapseWSRun (prevSpace : Bool) : List Char → List Char
  | [] => []
  | c :: rest =>
    if pySpace c then
      if prevSpace then collapseWSRun true rest
      else ' ' :: collapseWSRun true rest
    else c :: collapseWSRun false rest

/-- `_normalize_ws` from `chapter_splitter.py`. -/
def normalizeWS (s : String) : String :=
  ⟨pyStrip (collapseWSRun false ((s.data.map normalizeQuote).map normalizeDash))⟩

/-- Case-insensitive match of a lowercase keyword at the head of a list;
returns the rest on success. -/
def matchCI : List Char → List Char → Option (List Char)
  | [], l => some l
  | _ :: _, [] => none
  | k :: ks, c :: cs => if c.toLower == k then matchCI ks cs else none

/-- Word characters for `\w` (restricted to ASCII, as in the repo's titles). -/
def isWordChar (c : Char) : Bool := c.isAlphanum || c == '_'

/-- The capture group `(\d+|[IVXLCDM]+|\w+)` at the head of `l`: alternatives
are tried in order and each is a maximal run (nothing follows the group in
the pattern, so no backtracking applies); with `re.IGNORECASE` the Roman
class also matches lowercase. -/
def groupNum (l : List Char) : Option (List Char) :=
  let ds := l.takeWhile Char.isDigit
  if !ds.isEmpty then some ds
  else
    let rs := l.takeWhile (fun c => "IVXLCDMivxlcdm".data.contains c)
    if !rs.isEmpty then some rs
    else
      let ws := l.takeWhile isWordChar
      if !ws.isEmpty then some ws else none

/-- `re.match(r"^<kw>\s+(\d+|[IVXLCDM]+|\w+)", s, re.IGNORECASE)`, returning
the captured group. -/
def matchKwNum (kw : String) (s : String) : Option String :=
  match matchCI kw.data s.data with
  | none => none
  | some rest =>
    if (rest.takeWhile pySpace).isEmpty then none
    else (groupNum (rest.dropWhile pySpace)).map (fun g => (⟨g⟩ : String))

/-- The section-type and chapter-number classification of an outline title:
the `part` regex, then the `chapter` regex, then the front-matter keyword
loop, then the back-matter keyword loop (each later hit overrides). -/
def classifyOutlineTitle (titleClean : String) : SectionType × Option Nat :=
  let st1 : SectionType × Option Nat :=
    match matchKwNum "part" titleClean with
    | some g => (SectionType.part, parseNumber g)
    | none => (SectionType.chapter, none)
  let st2 :=
    match matchKwNum "chapter" titleClean with
    | some g => (SectionType.chapter, parseNumber g)
    | none => st1
  let low : String := ⟨titleClean.data.map Char.toLower⟩
  let st3 := if frontMatterWords.any (fun w => keywordHit w low)
    then (SectionType.frontMatter, st2.2) else st2
  if backMatterWords.any (fun w => keywordHit w low)
    then (SectionType.backMatter, st3.2) else st3

/-- Chapter-number inheritance from a PASS-2 boundary within ±2 pages; the
Python truthiness test `b.get("chapter_number")` rejects both `None` and 0. -/
def inheritNum (boundaries : List Boundary) (start : Nat) : Option Nat :=
  match boundaries.find? (fun b =>
    (max b.page start - min b.page start ≤ 2 : Bool) &&
    (match b.chapterNumber with
     | some n => n != 0
     | none => false)) with
  | some b => b.chapterNumber
  | none => none

/-- The level-selection loop of `_extract_via_outline`: descending distinct
levels; keep the entries at or below a level when there are at least 3 of
them and strictly more than the best so far. -/
def pickBest (toc : List (Nat × String × Nat)) : Option (List (String × Nat)) :=
  let descLevels := ((toc.map (fun t => t.1)).dedup).insertionSort (fun a b => b ≤ a)
  descLevels.foldl
    (fun best L =>
      let entries := (toc.filter (fun t => t.1 ≤ L)).map (fun t => (t.2.1, t.2.2))
      if decide (3 ≤ entries.length) &&
          (match best with
           | none => true
           | some b => decide (b.length < entries.length))
      then some entries else best)
    none

/-- Pair each outline entry with its end page: the next entry's 1-based page
minus 1, or the page count for the last entry (natural subtraction mirrors
`range`'s behaviour on an empty range). -/
def withEndsOutline (total : Nat) : List (String × Nat) → List ((String × Nat) × Nat)
  | [] => []
  | e :: rest =>
    (e, match rest.head? with
        | some e2 => e2.2 - 1
        | none => total) :: withEndsOutline total rest

/-- One chapter of the outline fallback: drop when under 30 words, classify
the normalised title, inherit a chapter number from a nearby boundary when
the title gave none. -/
def mkOutlineChapter (doc : List String) (boundaries : List Boundary)
    (title : String) (page : Nat) (e : Nat) : Option Chapter :=
  let start := page - 1
  let text := pagesText doc start e
  let wc := wordCountS text
  if wc < 30 then none
  else
    let titleClean := normalizeWS title
    let cls := classifyOutlineTitle titleClean
    let num := match cls.2 with
      | some n => some n
      | none =>
        if cls.1 = SectionType.chapter then inheritNum boundaries start else none
    some { index := 0, sectionType := cls.1, chapterNumber := num, title := titleClean,
           text := text, pageStart := start + 1, pageEnd := min e doc.length,
           wordCount := wc }

/-- `_extract_via_outline`: pick the outline level set, build chapters from
consecutive entry pages (in outline order — no sort, no dedup), then keep
only chapters with at least 50 words and require at least 2 of them. -/
def extractViaOutline (doc : List String) (boundaries : List Boundary)
    (toc : List (Nat × String × Nat)) : Option (List Chapter) :=
  if toc.isEmpty then none
  else
    match pickBest toc with
    | none => none
    | some best =>
      if best.length < 2 then none
      else
        let chapters := (withEndsOutline doc.length best).filterMap
          (fun pe => mkOutlineChapter doc boundaries pe.1.1 pe.1.2 pe.2)
        let kept := chapters.filter (fun c => 50 ≤ c.wordCount)
        if kept.length < 2 then none else some (reindexFrom 0 kept)

/-!  ### Headings-only fallback (`_extract_via_headings_only`)  -/

/-- Pair each significant boundary with its end page. -/
def withEndsB (total : Nat) : List Boundary → List (Boundary × Nat)
  | [] => []
  | b :: rest =>
    (b, match rest.head? with
        | some b2 => b2.page
        | none => total) :: withEndsB total rest

/-- One chapter of the headings-only fallback: drop when under
`MIN_WORDS_PER_CHAPTER = 100` words; `unknown` boundaries become chapters. -/
def mkHeadingChapter (doc : List String) (b : Boundary) (e : Nat) : Option Chapter :=
  let text := pagesText doc b.page e
  let wc := wordCountS text
  if wc < 100 then none
  else
    some { index := 0,
           sectionType := if b.kind = SectionType.unknown then SectionType.chapter else b.kind,
           chapterNumber := b.chapterNumber, title := b.headingText, text := text,
           pageStart := b.page + 1, pageEnd := min e doc.length, wordCount := wc }

/-- `_extract_via_headings_only`: keep non-part boundaries, require at least
two, build consecutive page ranges, filter by word count, require at least
two chapters, re-index. -/
def extractViaHeadingsOnly (doc : List String) (boundaries : List Boundary) :
    Option (List Chapter) :=
  if boundaries.length < 2 then none
  else
    let sig := boundaries.filter (fun b => b.kind != SectionType.part)
    if sig.length < 2 then none
    else
      let chapters := (withEndsB doc.length sig).filterMap
        (fun pe => mkHeadingChapter doc pe.1 pe.2)
      if chapters.length < 2 then none else some (reindexFrom 0 chapters)

/-!  ### Page-chunk fallback (`_extract_via_page_chunks`)  -/

/-- The chunking loop: 20-page slices from `start`, labelled
`Section k (Pages a-b)`, with no word-count filter.  Fuel bounds the number
of iterations; `doc.length` always suffices since `start` strictly grows. -/
def pageChunksFrom (doc : List String) : Nat → Nat → Nat → List Chapter
  | 0, _, _ => []
  | f + 1, idx, start =>
    if start < doc.length then
      let e := min (start + 20) doc.length
      let text := pagesText doc start e
      { index := idx, sectionType := SectionType.chapter, chapterNumber := none,
        title := "Section " ++ natToDecimal (idx + 1) ++ " (Pages " ++
          natToDecimal (start + 1) ++ "-" ++ natToDecimal e ++ ")",
        text := text, pageStart := start + 1, pageEnd := e,
        wordCount := wordCountS text } :: pageChunksFrom doc f (idx + 1) e
    else []

/-- `_extract_via_page_chunks`. -/
def extractViaPageChunks (doc : List String) : List Chapter :=
  pageChunksFrom doc doc.length 0 0

/-!  ### Word-count invariants of the detection paths (C4)  -/

/-- Re-indexing does not change the word counts. -/
theorem reindexFrom_wordCounts :
    ∀ (l : List Chapter) (i : Nat),
      (reindexFrom i l).map (fun c => c.wordCount) = l.map (fun c => c.wordCount) := by
  intro l
  induction l with
  | nil => intro i; simp [reindexFrom]
  | cons c rest ih => intro i; simp [reindexFrom, ih]

/-- A surviving chapter of the alignment path has at least 30 words. -/
theorem mkAlignedChapter_wordCount {doc : List String} {a : AlignedRec} {e : Nat}
    {c : Chapter} (h : mkAlignedChapter doc a e = some c) : 30 ≤ c.wordCount := by
  simp only [mkAlignedChapter] at h
  split at h
  · exact absurd h (by simp)
  · injection h with h
    subst h
    simp only
    omega

/-- A surviving chapter of the headings-only path has at least 100 words. -/
theorem mkHeadingChapter_wordCount {doc : List String} {b : Boundary} {e : Nat}
    {c : Chapter} (h : mkHeadingChapter doc b e = some c) : 100 ≤ c.wordCount := by
  simp only [mkHeadingChapter] at h
  split at h
  · exact absurd h (by simp)
  · injection h with h
    subst h
    simp only
    omega

/-- C4 amended: the TOC-alignment path only emits chapters with at least 30
words, the outline fallback at least 50, and the headings-only fallback at
least 100; the page-chunk fallback applies no word-count filter (see the
counterexample). -/
theorem chapter_word_count_bounds (doc : List String) (aligned : List AlignedRec)
    (boundaries : List Boundary) (toc : List (Nat × String × Nat)) :
    (∀ c ∈ buildAlignedChapters doc aligned, 30 ≤ c.wordCount) ∧
    (∀ chs, extractViaOutline doc boundaries toc = some chs →
      ∀ c ∈ chs, 50 ≤ c.wordCount) ∧
    (∀ chs, extractViaHeadingsOnly doc boundaries = some chs →
      ∀ c ∈ chs, 100 ≤ c.wordCount) := by
  refine ⟨?_, ?_, ?_⟩
  · intro c hc
    simp only [buildAlignedChapters] at hc
    have h1 := List.mem_map_of_mem (fun c : Chapter => c.wordCount) hc
    rw [reindexFrom_wordCounts] at h1
    obtain ⟨d, hd, hdc⟩ := List.mem_map.mp h1
    simp only at hdc
    obtain ⟨pe, _, hpe⟩ := List.mem_filterMap.mp hd
    have := mkAlignedChapter_wordCount hpe
    omega
  · intro chs h c hc
    simp only [extractViaOutline] at h
    split at h
    · exact absurd h (by simp)
    · split at h
      · exact absurd h (by simp)
      · split at h
        · exact absurd h (by simp)
        · split at h
          · exact absurd h (by simp)
          · injection h with h
            subst h
            have h1 := List.mem_map_of_mem (fun c : Chapter => c.wordCount) hc
            rw [reindexFrom_wordCounts] at h1
            obtain ⟨d, hd, hdc⟩ := List.mem_map.mp h1
            simp only at hdc
            have h2 := (List.mem_filter.mp hd).2
            have h3 : 50 ≤ d.wordCount := by simpa using h2
            omega
  · intro chs h c hc
    simp only [extractViaHeadingsOnly] at h
    split at h
    · exact absurd h (by simp)
    · split at h
      · exact absurd h (by simp)
      · split at h
        · exact absurd h (by simp)
        · injection h with h
          subst h
          have h1 := List.mem_map_of_mem (fun c : Chapter => c.wordCount) hc
          rw [reindexFrom_wordCounts] at h1
          obtain ⟨d, hd, hdc⟩ := List.mem_map.mp h1
          simp only at hdc
          obtain ⟨pe, _, hpe⟩ := List.mem_filterMap.mp hd
          have := mkHeadingChapter_wordCount hpe
          omega

/-- A 50-word page for the C4 witness document. -/
def wcPage : String := ⟨joinSep [' '] (List.replicate 50 ['w'])⟩

/-- The C4 witness document: four pages of 50 words each. -/
def wcDoc : List String := List.replicate 4 wcPage

/-- The C4 witness aligned list: one record spanning the whole document
(200 words), so the alignment path emits one chapter. -/
def wcAligned : List AlignedRec :=
  [{ startPage := 0, chapterNumber := some 1, kind := SectionType.chapter, title := "One" }]

/-- The C4 witness boundaries: two chapter headings two pages apart, so the
headings-only path emits two 100-word chapters. -/
def wcBnds : List Boundary :=
  [{ page := 0, headingText := "Chapter 1", chapterNumber := some 1,
     kind := SectionType.chapter },
   { page := 2, headingText := "Chapter 2", chapterNumber := some 2,
     kind := SectionType.chapter }]

/-- The C4 witness outline: three level-1 entries on pages 1, 2, 3, so the
outline path emits three chapters of 50, 50 and 100 words. -/
def wcToc : List (Nat × String × Nat) := [(1, "One", 1), (1, "Two", 2), (1, "Three", 3)]

/-- Placeholder chapter for `headD` in the C4 witness statement. -/
def wcDefault : Chapter :=
  { index := 0, sectionType := SectionType.unknown, chapterNumber := none,
    title := "", text := "", pageStart := 0, pageEnd := 0, wordCount := 0 }

set_option maxRecDepth 1000000 in
/-- C4 witness for the amended theorem, at inputs where all three paths
produce chapters: the alignment path emits 1 chapter, the outline path 3 and
the headings-only path 2, and the first chapter of each satisfies its
path's bound. -/
theorem chapter_word_count_bounds_witness :
    (buildAlignedChapters wcDoc wcAligned).length = 1 ∧
    30 ≤ ((buildAlignedChapters wcDoc wcAligned).headD wcDefault).wordCount ∧
    ((extractViaOutline wcDoc wcBnds wcToc).getD []).length = 3 ∧
    50 ≤ (((extractViaOutline wcDoc wcBnds wcToc).getD []).headD wcDefault).wordCount ∧
    ((extractViaHeadingsOnly wcDoc wcBnds).getD []).length = 2 ∧
    100 ≤ (((extractViaHeadingsOnly wcDoc wcBnds).getD []).headD wcDefault).wordCount := by
  obtain ⟨h1, h2, h3⟩ := chapter_word_count_bounds wcDoc wcAligned wcBnds wcToc
  have e2 : extractViaOutline wcDoc wcBnds wcToc =
      some ((extractViaOutline wcDoc wcBnds wcToc).getD []) := by decide
  have e3 : extractViaHeadingsOnly wcDoc wcBnds =
      some ((extractViaHeadingsOnly wcDoc wcBnds).getD []) := by decide
  have m1 : (buildAlignedChapters wcDoc wcAligned).headD wcDefault ∈
      buildAlignedChapters wcDoc wcAligned := by decide
  have m2 : ((extractViaOutline wcDoc wcBnds wcToc).getD []).headD wcDefault ∈
      (extractViaOutline wcDoc wcBnds wcToc).getD [] := by decide
  have m3 : ((extractViaHeadingsOnly wcDoc wcBnds).getD []).headD wcDefault ∈
      (extractViaHeadingsOnly wcDoc wcBnds).getD [] := by decide
  exact ⟨by decide, h1 _ m1, by decide, h2 _ e2 _ m2, by decide, h3 _ e3 _ m3⟩

/-- C4 counterexample: a one-page PDF with no extractable text reaches the
page-chunk fallback, which emits a chapter with word_count 0 < 30 — the
page-chunk path has no word-count filter. -/
theorem page_chunk_chapter_below_min_words :
    ∃ c ∈ extractViaPageChunks [""], c.wordCount < 30 := by decide

/-!  ### Ordering invariants of the detection paths (C5)  -/

/-- Members of the dedup loop's output are strictly above the last kept
record, and the output is strictly increasing. -/
theorem dedupeGo_facts :
    ∀ (rest : List AlignedRec) (last : AlignedRec),
      List.Pairwise (fun a b => a.startPage ≤ b.startPage) rest →
      (∀ x ∈ rest, last.startPage ≤ x.startPage) →
      (∀ y ∈ dedupeGo last rest, last.startPage < y.startPage) ∧
      List.Pairwise (fun a b => a.startPage < b.startPage) (dedupeGo last rest) := by
  intro rest
  induction rest with
  | nil => intro last _ _; simp [dedupeGo]
  | cons a rest ih =>
    intro last hp hle
    rw [List.pairwise_cons] at hp
    obtain ⟨ha, hp'⟩ := hp
    by_cases he : a.startPage = last.startPage
    · simp only [dedupeGo]
      rw [if_pos he]
      exact ih last hp' (fun x hx => by rw [← he]; exact ha x hx)
    · simp only [dedupeGo]
      rw [if_neg he]
      have hlast : last.startPage < a.startPage :=
        lt_of_le_of_ne (hle a (List.mem_cons_self _ _)) (fun h => he h.symm)
      obtain ⟨ihf, ihp⟩ := ih a hp' ha
      constructor
      · intro y hy
        rcases List.mem_cons.mp hy with rfl | hy'
        · exact hlast
        · exact lt_trans hlast (ihf y hy')
      · rw [List.pairwise_cons]
        exact ⟨ihf, ihp⟩

/-- Deduplication of a sorted list yields strictly increasing start pages. -/
theorem dedupeByStart_pairwise (l : List AlignedRec)
    (h : List.Pairwise (fun a b => a.startPage ≤ b.startPage) l) :
    List.Pairwise (fun a b => a.startPage < b.startPage) (dedupeByStart l) := by
  cases l with
  | nil => simp [dedupeByStart]
  | cons a rest =>
    rw [List.pairwise_cons] at h
    obtain ⟨ha, hp⟩ := h
    obtain ⟨hf, hpw⟩ := dedupeGo_facts rest a hp ha
    simp only [dedupeByStart]
    rw [List.pairwise_cons]
    exact ⟨hf, hpw⟩

/-- The first components of the end-paired list are the original records. -/
theorem withEnds_fst_mem (total : Nat) :
    ∀ (l : List AlignedRec) (y : AlignedRec × Nat), y ∈ withEnds total l → y.1 ∈ l := by
  intro l
  induction l with
  | nil => intro y hy; simp [withEnds] at hy
  | cons a rest ih =>
    intro y hy
    simp only [withEnds, List.mem_cons] at hy
    rcases hy with rfl | hy
    · simp
    · exact List.mem_cons_of_mem _ (ih y hy)

/-- Pairing with end pages preserves the strict ordering of start pages. -/
theorem withEnds_pairwise (total : Nat) :
    ∀ (l : List AlignedRec),
      List.Pairwise (fun a b => a.startPage < b.startPage) l →
      List.Pairwise (fun x y : AlignedRec × Nat => x.1.startPage < y.1.startPage)
        (withEnds total l) := by
  intro l
  induction l with
  | nil => intro _; simp [withEnds]
  | cons a rest ih =>
    intro h
    rw [List.pairwise_cons] at h
    obtain ⟨ha, hp⟩ := h
    simp only [withEnds]
    rw [List.pairwise_cons]
    refine ⟨?_, ih hp⟩
    intro y hy
    exact ha y.1 (withEnds_fst_mem total rest y hy)

/-- A surviving chapter's 1-based page_start is its record's start page + 1. -/
theorem mkAlignedChapter_pageStart {doc : List String} {a : AlignedRec} {e : Nat}
    {c : Chapter} (h : mkAlignedChapter doc a e = some c) :
    c.pageStart = a.startPage + 1 := by
  simp only [mkAlignedChapter] at h
  split at h
  · exact absurd h (by simp)
  · injection h with h
    subst h
    rfl

/-- Every chapter produced by re-indexing shares its page_start with an
input chapter. -/
theorem reindexFrom_mem_pageStart :
    ∀ (l : List Chapter) (i : Nat) (d : Chapter), d ∈ reindexFrom i l →
      ∃ d0 ∈ l, d.pageStart = d0.pageStart := by
  intro l
  induction l with
  | nil => intro i d hd; simp [reindexFrom] at hd
  | cons c rest ih =>
    intro i d hd
    simp only [reindexFrom, List.mem_cons] at hd
    rcases hd with rfl | hd
    · exact ⟨c, List.mem_cons_self _ _, rfl⟩
    · obtain ⟨d0, hd0, hps⟩ := ih (i + 1) d hd
      exact ⟨d0, List.mem_cons_of_mem _ hd0, hps⟩

/-- Re-indexing preserves strict page_start ordering. -/
theorem reindexFrom_pairwise :
    ∀ (l : List Chapter) (i : Nat),
      List.Pairwise (fun c d => c.pageStart < d.pageStart) l →
      List.Pairwise (fun c d => c.pageStart < d.pageStart) (reindexFrom i l) := by
  intro l
  induction l with
  | nil => intro i _; simp [reindexFrom]
  | cons c rest ih =>
    intro i h
    rw [List.pairwise_cons] at h
    obtain ⟨hc, hp⟩ := h
    simp only [reindexFrom]
    rw [List.pairwise_cons]
    refine ⟨?_, ih (i + 1) hp⟩
    intro d hd
    obtain ⟨d0, hd0, hps⟩ := reindexFrom_mem_pageStart rest (i + 1) d hd
    rw [hps]
    exact hc d0 hd0

/-- C5 amended: every chapter list produced by the printed-TOC alignment
path is ordered by page_start with strictly increasing values; the outline
fallback does not sort or deduplicate and can emit two chapters sharing a
page_start (see the counterexample). -/
theorem aligned_chapters_strictly_increasing (doc : List String)
    (aligned : List AlignedRec) :
    List.Pairwise (fun c d => c.pageStart < d.pageStart)
      (buildAlignedChapters doc aligned) := by
  have hs : List.Pairwise (fun a b => a.startPage ≤ b.startPage) (alignedSort aligned) :=
    List.sorted_insertionSort _ aligned
  have hd := dedupeByStart_pairwise _ hs
  have hw := withEnds_pairwise doc.length _ hd
  have hfm : List.Pairwise (fun c d : Chapter => c.pageStart < d.pageStart)
      ((withEnds doc.length (dedupeByStart (alignedSort aligned))).filterMap
        (fun pe => mkAlignedChapter doc pe.1 pe.2)) := by
    refine List.Pairwise.filterMap _ ?_ hw
    intro x y hxy c hc d hdc
    rw [mkAlignedChapter_pageStart hc, mkAlignedChapter_pageStart hdc]
    omega
  simpa only [buildAlignedChapters] using reindexFrom_pairwise _ 0 hfm

/-- Twelve pages of eight words each (for the outline counterexample). -/
def docTwelve : List String := List.replicate 12 "a a a a a a a a"

/-- An embedded outline whose page numbers are not monotone. -/
def tocOutOfOrder : List (Nat × String × Nat) :=
  [(1, "Alpha", 3), (1, "Beta", 10), (1, "Gamma", 3)]

/-- C5 counterexample: the outline fallback, fed an outline with
out-of-order page numbers, returns two chapters with the same page_start 3 —
the chapter list is neither strictly increasing nor duplicate-free. -/
theorem outline_duplicate_page_start :
    (extractViaOutline docTwelve [] tocOutOfOrder).map
      (fun chs => chs.map (fun c => c.pageStart)) = some [3, 3] := by
  decide

/-!  ## The text normalizer `_clean_for_tts` (`src/extractors/__init__.py`) (C6)  -/

/-- The Unicode superscript digits deleted by step 1 of `_clean_for_tts`. -/
def isSuperscriptDigit (c : Char) : Bool :=
  c == Char.ofNat 0x2070 || c == Char.ofNat 0xb9 || c == Char.ofNat 0xb2 ||
  c == Char.ofNat 0xb3 || c == Char.ofNat 0x2074 || c == Char.ofNat 0x2075 ||
  c == Char.ofNat 0x2076 || c == Char.ofNat 0x2077 || c == Char.ofNat 0x2078 ||
  c == Char.ofNat 0x2079

/-- Step 1: `re.sub(r'[⁰¹²³⁴⁵⁶⁷⁸⁹]+', '', text)` deletes every superscript
digit character. -/
def removeSuperscripts (l : List Char) : List Char :=
  l.filter (fun c => !isSuperscriptDigit c)

/-- The character class `[\d,\-–\s]` inside the citation regex. -/
def isCiteBody (c : Char) : Bool :=
  c.isDigit || c == ',' || c == '-' || c == Char.ofNat 0x2013 || pySpace c

/-- A citation match `\[\d[\d,\-–\s]*\]` starting at the head of the list:
the class excludes `]`, so the greedy class run is maximal and the match
succeeds exactly when the character right after the run is `]`.  Returns
the rest after the match. -/
def citeTail : List Char → Option (List Char)
  | '[' :: c :: rest =>
    if c.isDigit then
      match rest.dropWhile isCiteBody with
      | ']' :: tail => some tail
      | _ => none
    else none
  | _ => none

/-- Step 2: `re.sub(r'\[\d[\d,\-–\s]*\]', '', text)` — left-to-right scan
deleting non-overlapping citation matches (fuel-indexed; fuel `l.length`
always suffices). -/
def removeCitationsF : Nat → List Char → List Char
  | 0, l => l
  | _ + 1, [] => []
  | f + 1, c :: rest =>
    match citeTail (c :: rest) with
    | some tail => removeCitationsF f tail
    | none => c :: removeCitationsF f rest

/-- Step 2 of `_clean_for_tts`. -/
def removeCitations (l : List Char) : List Char := removeCitationsF l.length l

/-- The lookbehind punctuation class `[.,;:!?]`. -/
def isPunct1 (c : Char) : Bool :=
  c == '.' || c == ',' || c == ';' || c == ':' || c == '!' || c == '?'

/-- The lookahead class `[.,;:!?\)]`. -/
def isPunct2 (c : Char) : Bool := isPunct1 c || c == ')'

/-- The lookbehind `(?:(?<=[a-zA-Z])|(?<=[a-zA-Z][.,;:!?]))`, applied to the
one or two characters preceding the scan position in the original string. -/
def lookbehindOK (p2 p1 : Option Char) : Bool :=
  (match p1 with
   | some c => c.isAlpha
   | none => false) ||
  (match p2, p1 with
   | some a, some b => a.isAlpha && isPunct1 b
   | _, _ => false)

/-- The lookahead `(?=\s|$|[.,;:!?\)])`. -/
def lookaheadOK : List Char → Bool
  | [] => true
  | c :: _ => pySpace c || isPunct2 c

/-- Shift the two-character lookbehind context over one scanned character. -/
def ctxPush (ctx : Option Char × Option Char) (c : Char) : Option Char × Option Char :=
  (ctx.2, some c)

/-- Step 3 scan of `re.sub(r'(?:(?<=[a-zA-Z])|(?<=[a-zA-Z][.,;:!?]))\d{1,3}`
`(?=\s|$|[.,;:!?\)])', '', text)`.  `\d{1,3}` is greedy and every shorter
attempt leaves a digit under the lookahead, which no lookahead alternative
accepts; hence a match occurs exactly when the maximal digit run from the
position has length ≤ 3 and the character after the run satisfies the
lookahead.  `re.sub` scans the original string: after a deletion the scan
resumes after the match, and the deleted digits still form the lookbehind
context of the following positions. -/
def footGoF : Nat → Option Char → Option Char → List Char → List Char
  | 0, _, _, l => l
  | _ + 1, _, _, [] => []
  | f + 1, p2, p1, c :: rest =>
    if c.isDigit && lookbehindOK p2 p1 then
      let run := (c :: rest).takeWhile Char.isDigit
      let after := (c :: rest).dropWhile Char.isDigit
      if run.length ≤ 3 && lookaheadOK after then
        let ctx := run.foldl ctxPush (p2, p1)
        footGoF f ctx.1 ctx.2 after
      else c :: footGoF f p1 (some c) rest
    else c :: footGoF f p1 (some c) rest

/-- Step 3 of `_clean_for_tts`. -/
def removeFootnotes (l : List Char) : List Char := footGoF l.length none none l

/-- The paragraph-join separator `" " + TTS_PAUSE + " "`. -/
def sentinelSep : List Char := " TTSPAUSEBREAK ".data

/-- Step 5 of `_clean_for_tts`: split on blank-line boundaries, strip each
paragraph, keep the non-empty ones, and join them with the sentinel. -/
def paragraphJoin (l : List Char) : List Char :=
  joinSep sentinelSep
    (((pySplitSeq "\n\n".data l).map pyStrip).filter (fun p => !p.isEmpty))

/-- `_clean_for_tts` on a character list: steps 1-5 in source order
(step 4 is the double-space collapse `collapseSpaces`). -/
def cleanL (l : List Char) : List Char :=
  paragraphJoin (collapseSpaces (removeFootnotes (removeCitations (removeSuperscripts l))))

/-- `_clean_for_tts`. -/
def cleanForTTS (s : String) : String := ⟨cleanL s.data⟩

/-- C6 counterexample: `_clean_for_tts` is not idempotent.  On `"[1[2]]"`
the citation pass deletes `[2]`, leaving `[1]` (re.sub deletes
non-overlapping matches and does not rescan), so one application returns
`"[1]"` while a second application deletes it and returns `""`. -/
theorem clean_not_idempotent :
    cleanForTTS (cleanForTTS "[1[2]]") ≠ cleanForTTS "[1[2]]" := by decide

/-- The one-pass values behind the counterexample. -/
theorem clean_counterexample_values :
    cleanForTTS "[1[2]]" = "[1]" ∧ cleanForTTS "[1]" = "" := by decide

/-!  ### Facts about the splitter  -/

/-- A successful separator consumption decomposes the list. -/
theorem consumeSep_eq :
    ∀ (ss l r : List Char), consumeSep ss l = some r → l = ss ++ r := by
  intro ss
  induction ss with
  | nil =>
    intro l r h
    simp [consumeSep] at h
    simp [h]
  | cons s ss ih =>
    intro l r h
    cases l with
    | nil => simp [consumeSep] at h
    | cons c cs =>
      simp only [consumeSep] at h
      split at h
      · rename_i hc
        have := ih cs r h
        subst this
        simp [List.cons_append]
        exact eq_of_beq hc
      · exact absurd h (by simp)

/-- The splitter never returns an empty piece list. -/
theorem split_ne_nil (s0 : Char) (ss : List Char) :
    ∀ (f : Nat) (l : List Char), splitSeqF s0 ss f l ≠ [] := by
  intro f
  induction f with
  | zero => intro l; cases l <;> simp [splitSeqF]
  | succ f ih =>
    intro l
    cases l with
    | nil => simp [splitSeqF]
    | cons c rest =>
      simp only [splitSeqF]
      split
      · split
        · simp
        · cases h : splitSeqF s0 ss f rest with
          | nil => exact absurd h (ih rest)
          | cons p ps => simp [headCons, h]
      · cases h : splitSeqF s0 ss f rest with
        | nil => exact absurd h (ih rest)
        | cons p ps => simp [headCons, h]

/-- The first piece of a split is a leading run of the input. -/
theorem split_first_decomp (s0 : Char) (ss : List Char) :
    ∀ (f : Nat) (l h : List Char) (ht : List (List Char)),
      splitSeqF s0 ss f l = h :: ht → ∃ v, l = h ++ v := by
  intro f
  induction f with
  | zero =>
    intro l h ht heq
    cases l with
    | nil =>
      simp only [splitSeqF, List.cons.injEq] at heq
      exact ⟨[], by simp [← heq.1]⟩
    | cons c rest =>
      simp only [splitSeqF, List.cons.injEq] at heq
      exact ⟨[], by simp [← heq.1]⟩
  | succ f ih =>
    intro l h ht heq
    cases l with
    | nil =>
      simp only [splitSeqF, List.cons.injEq] at heq
      exact ⟨[], by simp [← heq.1]⟩
    | cons c rest =>
      simp only [splitSeqF] at heq
      split at heq
      · cases hcs : consumeSep ss rest with
        | some r =>
          rw [hcs] at heq
          simp only [List.cons.injEq] at heq
          exact ⟨c :: rest, by simp [← heq.1]⟩
        | none =>
          rw [hcs] at heq
          cases hsp : splitSeqF s0 ss f rest with
          | nil => exact absurd hsp (split_ne_nil s0 ss f rest)
          | cons p ps =>
            rw [hsp] at heq
            simp only [headCons, List.cons.injEq] at heq
            obtain ⟨v, hv⟩ := ih rest p ps hsp
            exact ⟨v, by rw [← heq.1]; simp [hv]⟩
      · cases hsp : splitSeqF s0 ss f rest with
        | nil => exact absurd hsp (split_ne_nil s0 ss f rest)
        | cons p ps =>
          rw [hsp] at heq
          simp only [headCons, List.cons.injEq] at heq
          obtain ⟨v, hv⟩ := ih rest p ps hsp
          exact ⟨v, by rw [← heq.1]; simp [hv]⟩

/-- Every piece of a split occurs contiguously inside the input. -/
theorem split_mem_decomp (s0 : Char) (ss : List Char) :
    ∀ (f : Nat) (l : List Char) (p : List Char),
      p ∈ splitSeqF s0 ss f l → ∃ u v, l = u ++ p ++ v := by
  intro f
  induction f with
  | zero =>
    intro l p hp
    cases l with
    | nil =>
      simp [splitSeqF] at hp
      exact ⟨[], [], by simp [hp]⟩
    | cons c rest =>
      simp [splitSeqF] at hp
      exact ⟨[], [], by simp [hp]⟩
  | succ f ih =>
    intro l p hp
    cases l with
    | nil =>
      simp [splitSeqF] at hp
      exact ⟨[], [], by simp [hp]⟩
    | cons c rest =>
      simp only [splitSeqF] at hp
      split at hp
      · rename_i hc
        cases hcs : consumeSep ss rest with
        | some r =>
          rw [hcs] at hp
          rcases List.mem_cons.mp hp with rfl | hp'
          · exact ⟨[], c :: rest, by simp⟩
          · obtain ⟨u, v, huv⟩ := ih r p hp'
            refine ⟨c :: ss ++ u, v, ?_⟩
            have := consumeSep_eq ss rest r hcs
            subst this
            simp [huv, List.append_assoc]
        | none =>
          rw [hcs] at hp
          cases hsp : splitSeqF s0 ss f rest with
          | nil => exact absurd hsp (split_ne_nil s0 ss f rest)
          | cons p0 ps =>
            rw [hsp] at hp
            simp only [headCons] at hp
            rcases List.mem_cons.mp hp with rfl | hp'
            · obtain ⟨v, hv⟩ := split_first_decomp s0 ss f rest p0 ps hsp
              exact ⟨[], v, by simp [hv]⟩
            · obtain ⟨u, v, huv⟩ := ih rest p
                (by rw [hsp]; exact List.mem_cons_of_mem p0 hp')
              exact ⟨c :: u, v, by simp [huv]⟩
      · cases hsp : splitSeqF s0 ss f rest with
        | nil => exact absurd hsp (split_ne_nil s0 ss f rest)
        | cons p0 ps =>
          rw [hsp] at hp
          simp only [headCons] at hp
          rcases List.mem_cons.mp hp with rfl | hp'
          · obtain ⟨v, hv⟩ := split_first_decomp s0 ss f rest p0 ps hsp
            exact ⟨[], v, by simp [hv]⟩
          · obtain ⟨u, v, huv⟩ := ih rest p
              (by rw [hsp]; exact List.mem_cons_of_mem p0 hp')
            exact ⟨c :: u, v, by simp [huv]⟩

/-- A contiguous middle run inherits the no-adjacent-pair property. -/
theorem chain'_middle {R : Char → Char → Prop} {u p v : List Char}
    (h : List.Chain' R (u ++ p ++ v)) : List.Chain' R p :=
  (List.chain'_append.mp (List.chain'_append.mp h).1).2.1

/-- Pieces of a split on the two-newline separator never contain two
adjacent newlines: the scanner would have cut there. -/
theorem split_pieces_noNN :
    ∀ (f : Nat) (l : List Char), l.length ≤ f →
      ∀ p ∈ splitSeqF '\n' ['\n'] f l,
        List.Chain' (fun a b => ((a == '\n') && (b == '\n')) = false) p := by
  intro f
  induction f with
  | zero =>
    intro l hl p hp
    have hln : l = [] := List.length_eq_zero.mp (Nat.le_zero.mp hl)
    subst hln
    simp [splitSeqF] at hp
    simp [hp]
  | succ f ih =>
    intro l hl p hp
    cases l with
    | nil =>
      simp [splitSeqF] at hp
      simp [hp]
    | cons c rest =>
      have hrl : rest.length ≤ f := by simp at hl; omega
      simp only [splitSeqF] at hp
      split at hp
      · rename_i hc
        cases hcs : consumeSep ['\n'] rest with
        | some r =>
          rw [hcs] at hp
          rcases List.mem_cons.mp hp with rfl | hp'
          · simp
          · have hrest := consumeSep_eq _ _ _ hcs
            have hr : r.length ≤ f := by
              have := congrArg List.length hrest
              simp at this
              omega
            exact ih r hr p hp'
        | none =>
          rw [hcs] at hp
          cases hsp : splitSeqF '\n' ['\n'] f rest with
          | nil => exact absurd hsp (split_ne_nil _ _ f rest)
          | cons p0 ps =>
            rw [hsp] at hp
            simp only [headCons] at hp
            rcases List.mem_cons.mp hp with rfl | hp'
            · rw [List.chain'_cons']
              constructor
              · intro y hy
                obtain ⟨v, hv⟩ := split_first_decomp _ _ f rest p0 ps hsp
                cases p0 with
                | nil => simp at hy
                | cons y0 t0 =>
                  simp at hy
                  subst hy
                  rw [hv] at hcs
                  cases hy0 : (y0 == '\n') with
                  | true => simp [consumeSep, hy0] at hcs
                  | false => simp [hy0]
              · exact ih rest hrl p0 (by rw [hsp]; exact List.mem_cons_self _ _)
            · exact ih rest hrl p (by rw [hsp]; exact List.mem_cons_of_mem _ hp')
      · rename_i hc
        cases hsp : splitSeqF '\n' ['\n'] f rest with
        | nil => exact absurd hsp (split_ne_nil _ _ f rest)
        | cons p0 ps =>
          rw [hsp] at hp
          simp only [headCons] at hp
          rcases List.mem_cons.mp hp with rfl | hp'
          · rw [List.chain'_cons']
            refine ⟨fun y _ => ?_,
              ih rest hrl p0 (by rw [hsp]; exact List.mem_cons_self _ _)⟩
            simp at hc
            simp [hc]
          · exact ih rest hrl p (by rw [hsp]; exact List.mem_cons_of_mem _ hp')

/-- A list without two adjacent newlines splits into the single piece
consisting of the whole list. -/
theorem splitNN_id :
    ∀ (f : Nat) (l : List Char), l.length ≤ f →
      List.Chain' (fun a b => ((a == '\n') && (b == '\n')) = false) l →
      splitSeqF '\n' ['\n'] f l = [l] := by
  intro f
  induction f with
  | zero =>
    intro l hl _
    have hln : l = [] := List.length_eq_zero.mp (Nat.le_zero.mp hl)
    subst hln
    simp [splitSeqF]
  | succ f ih =>
    intro l hl hch
    cases l with
    | nil => simp [splitSeqF]
    | cons c rest =>
      have hrl : rest.length ≤ f := by simp at hl; omega
      have hch' : List.Chain' (fun a b => ((a == '\n') && (b == '\n')) = false) rest :=
        hch.tail
      simp only [splitSeqF]
      by_cases hc : (c == '\n') = true
      · rw [if_pos hc]
        cases hcs : consumeSep ['\n'] rest with
        | some r =>
          exfalso
          have hrest := consumeSep_eq _ _ _ hcs
          rw [hrest] at hch
          have hpair := (List.chain'_cons.mp hch).1
          simp [hc] at hpair
        | none =>
          rw [ih rest hrl hch']
          simp [headCons]
      · rw [if_neg hc]
        rw [ih rest hrl hch']
        simp [headCons]

/-!  ### Facts about stripping  -/

/-- Dropping trailing characters is a prefix of the list. -/
theorem dropTrailWhile_decomp (p : Char → Bool) :
    ∀ (l : List Char), ∃ v, l = dropTrailWhile p l ++ v := by
  intro l
  induction l with
  | nil => exact ⟨[], rfl⟩
  | cons c rest ih =>
    simp only [dropTrailWhile]
    cases hr : dropTrailWhile p rest with
    | nil =>
      by_cases hp : p c = true
      · rw [if_pos hp]
        exact ⟨c :: rest, rfl⟩
      · rw [if_neg hp]
        exact ⟨rest, rfl⟩
    | cons r0 rs =>
      obtain ⟨v, hv⟩ := ih
      rw [hr] at hv
      exact ⟨v, by simp [hv]⟩

/-- The last character surviving the trailing drop does not satisfy `p`. -/
theorem dropTrailWhile_getLast (p : Char → Bool) :
    ∀ (l : List Char) (c : Char),
      (dropTrailWhile p l).getLast? = some c → p c = false := by
  intro l
  induction l with
  | nil => intro c h; simp [dropTrailWhile] at h
  | cons a rest ih =>
    intro c h
    simp only [dropTrailWhile] at h
    cases hr : dropTrailWhile p rest with
    | nil =>
      rw [hr] at h
      cases hpa : p a with
      | true => rw [if_pos (by simp [hpa])] at h; simp at h
      | false =>
        rw [if_neg (by simp [hpa])] at h
        simp at h
        rw [← h]
        exact hpa
    | cons r0 rs =>
      rw [hr] at h
      rw [List.getLast?_cons_cons] at h
      exact ih c (by rw [hr]; exact h)

/-- The first character surviving a leading drop does not satisfy `p`. -/
theorem dropWhile_head (p : Char → Bool) :
    ∀ (l : List Char) (c : Char), (l.dropWhile p).head? = some c → p c = false := by
  intro l
  induction l with
  | nil => intro c h; simp at h
  | cons a rest ih =>
    intro c h
    rw [List.dropWhile_cons] at h
    by_cases hp : p a = true
    · rw [if_pos hp] at h
      exact ih c h
    · rw [if_neg hp] at h
      simp at h
      rw [← h]
      simpa using hp

/-- The head of a stripped list is not whitespace. -/
theorem pyStrip_head (l : List Char) (c : Char) (h : (pyStrip l).head? = some c) :
    pySpace c = false := by
  unfold pyStrip at h
  obtain ⟨v, hv⟩ := dropTrailWhile_decomp pySpace (l.dropWhile pySpace)
  cases hd : dropTrailWhile pySpace (l.dropWhile pySpace) with
  | nil => rw [hd] at h; simp at h
  | cons d ds =>
    rw [hd] at h hv
    simp at h
    subst h
    exact dropWhile_head pySpace l d (by rw [hv]; simp)

/-- The last character of a stripped list is not whitespace. -/
theorem pyStrip_getLast (l : List Char) (c : Char)
    (h : (pyStrip l).getLast? = some c) : pySpace c = false :=
  dropTrailWhile_getLast pySpace _ c h

/-- Stripping extracts a contiguous middle run of the list. -/
theorem pyStrip_decomp (l : List Char) : ∃ u v, l = u ++ pyStrip l ++ v := by
  obtain ⟨v, hv⟩ := dropTrailWhile_decomp pySpace (l.dropWhile pySpace)
  refine ⟨l.takeWhile pySpace, v, ?_⟩
  conv_lhs => rw [← List.takeWhile_append_dropWhile (p := pySpace) (l := l)]
  rw [List.append_assoc]
  unfold pyStrip
  rw [← hv]

/-- A list whose last character is not droppable is untouched by the
trailing drop. -/
theorem dropTrailWhile_id (p : Char → Bool) :
    ∀ (l : List Char), (∀ c, l.getLast? = some c → p c = false) →
      dropTrailWhile p l = l := by
  intro l
  induction l with
  | nil => intro _; rfl
  | cons a rest ih =>
    intro h
    simp only [dropTrailWhile]
    cases rest with
    | nil =>
      have ha := h a (by simp)
      simp [dropTrailWhile, ha]
    | cons r0 rs =>
      have hr : dropTrailWhile p (r0 :: rs) = r0 :: rs := by
        refine ih ?_
        intro c hc
        exact h c (by rw [List.getLast?_cons_cons]; exact hc)
      rw [hr]

/-- A list with non-whitespace edges is fixed by `strip`. -/
theorem pyStrip_id (l : List Char)
    (hh : ∀ c, l.head? = some c → pySpace c = false)
    (hl : ∀ c, l.getLast? = some c → pySpace c = false) : pyStrip l = l := by
  unfold pyStrip
  have hdw : l.dropWhile pySpace = l := by
    cases l with
    | nil => rfl
    | cons a rest =>
      rw [List.dropWhile_cons, if_neg (by simp [hh a (by simp)])]
  rw [hdw]
  exact dropTrailWhile_id pySpace l hl

/-!  ### Facts about the sentinel join  -/

/-- The join of a non-empty first piece starts with that piece's head. -/
theorem joinSep_head {α : Type} (sep : List α) (q : List α) (r : List (List α))
    (hq : q ≠ []) : (joinSep sep (q :: r)).head? = q.head? := by
  cases r with
  | nil => rfl
  | cons q2 r' =>
    cases q with
    | nil => exact absurd rfl hq
    | cons a as => simp [joinSep]

/-- The join of a non-empty first piece is non-empty. -/
theorem joinSep_ne_nil {α : Type} (sep : List α) (q : List α) (r : List (List α))
    (hq : q ≠ []) : joinSep sep (q :: r) ≠ [] := by
  intro h
  have hh := joinSep_head sep q r hq
  rw [h] at hh
  cases q with
  | nil => exact hq rfl
  | cons a as => simp at hh

/-- The last character of a join of pieces with non-`p` last characters is
itself non-`p`. -/
theorem joinSep_getLast_prop (p : Char → Bool) (sep : List Char) :
    ∀ (pieces : List (List Char)),
      (∀ q ∈ pieces, q ≠ [] ∧ (∀ c, q.getLast? = some c → p c = false)) →
      ∀ c, (joinSep sep pieces).getLast? = some c → p c = false := by
  intro pieces
  induction pieces with
  | nil => intro _ c h; simp [joinSep] at h
  | cons q r ih =>
    intro H c h
    cases r with
    | nil => exact (H q (by simp)).2 c h
    | cons q2 r' =>
      have hne : joinSep sep (q2 :: r') ≠ [] :=
        joinSep_ne_nil sep q2 r' (H q2 (by simp)).1
      rw [show joinSep sep (q :: q2 :: r') = (q ++ sep) ++ joinSep sep (q2 :: r') from by
        simp [joinSep, List.append_assoc]] at h
      rw [List.getLast?_append_of_ne_nil _ hne] at h
      exact ih (fun x hx => H x (List.mem_cons_of_mem _ hx)) c h

/-- The first character of a join of pieces with non-`p` first characters is
itself non-`p`. -/
theorem joinSep_head_prop (p : Char → Bool) (sep : List Char)
    (pieces : List (List Char))
    (H : ∀ q ∈ pieces, q ≠ [] ∧ (∀ c, q.head? = some c → p c = false)) :
    ∀ c, (joinSep sep pieces).head? = some c → p c = false := by
  intro c h
  cases pieces with
  | nil => simp [joinSep] at h
  | cons q r =>
    rw [joinSep_head sep q r (H q (by simp)).1] at h
    exact (H q (by simp)).2 c h

/-- Joining pieces whose edges do not satisfy `p`, with a separator that has
no adjacent `p`-pair, yields a list with no adjacent `p`-pair. -/
theorem joinSep_chain' (p : Char → Bool) (sep : List Char)
    (hsep : List.Chain' (fun a b => (p a && p b) = false) sep) :
    ∀ (pieces : List (List Char)),
      (∀ q ∈ pieces, q ≠ [] ∧
        List.Chain' (fun a b => (p a && p b) = false) q ∧
        (∀ c, q.head? = some c → p c = false) ∧
        (∀ c, q.getLast? = some c → p c = false)) →
      List.Chain' (fun a b => (p a && p b) = false) (joinSep sep pieces) := by
  intro pieces
  induction pieces with
  | nil => intro _; simp [joinSep]
  | cons q r ih =>
    intro H
    cases r with
    | nil => exact (H q (by simp)).2.1
    | cons q2 r' =>
      have Hq := H q (by simp)
      have Hr := fun x hx => H x (List.mem_cons_of_mem q hx)
      rw [show joinSep sep (q :: q2 :: r') = q ++ (sep ++ joinSep sep (q2 :: r')) from by
        simp [joinSep, List.append_assoc]]
      rw [List.chain'_append]
      refine ⟨Hq.2.1, ?_, ?_⟩
      · rw [List.chain'_append]
        refine ⟨hsep, ih Hr, ?_⟩
        intro a ha b hb
        have hpb : p b = false :=
          joinSep_head_prop p sep (q2 :: r')
            (fun x hx => ⟨(Hr x hx).1, (Hr x hx).2.2.1⟩) b hb
        simp [hpb]
      · intro a ha b hb
        have hpa : p a = false := Hq.2.2.2 a ha
        simp [hpa]

/-- Any character of a join comes from the separator or from a piece. -/
theorem joinSep_mem (sep : List Char) :
    ∀ (pieces : List (List Char)) (c : Char), c ∈ joinSep sep pieces →
      c ∈ sep ∨ ∃ q ∈ pieces, c ∈ q := by
  intro pieces
  induction pieces with
  | nil => intro c h; simp [joinSep] at h
  | cons q r ih =>
    intro c h
    cases r with
    | nil => exact Or.inr ⟨q, by simp, h⟩
    | cons q2 r' =>
      rw [show joinSep sep (q :: q2 :: r') = q ++ sep ++ joinSep sep (q2 :: r') from rfl] at h
      simp only [List.mem_append] at h
      rcases h with (hq | hs) | hj
      · exact Or.inr ⟨q, by simp, hq⟩
      · exact Or.inl hs
      · rcases ih c hj with hs | ⟨q', hq', hcq'⟩
        · exact Or.inl hs
        · exact Or.inr ⟨q', List.mem_cons_of_mem _ hq', hcq'⟩

/-!  ### Facts about the double-space collapse  -/

/-- The collapse preserves the first character. -/
theorem collapseSpacesF_head :
    ∀ (f : Nat) (l : List Char), (collapseSpacesF f l).head? = l.head? := by
  intro f l
  cases f with
  | zero => rfl
  | succ f =>
    cases l with
    | nil => rfl
    | cons c rest =>
      simp only [collapseSpacesF]
      by_cases hc : (c == ' ' && rest.head? == some ' ') = true
      · rw [if_pos hc]
        simp at hc
        simp [hc.1]
      · rw [if_neg hc]
        simp

/-- The collapse output has no two adjacent spaces. -/
theorem collapseSpacesF_noTwo :
    ∀ (f : Nat) (l : List Char), l.length ≤ f →
      List.Chain' (fun a b => ((a == ' ') && (b == ' ')) = false) (collapseSpacesF f l) := by
  intro f
  induction f with
  | zero =>
    intro l hl
    have hln : l = [] := List.length_eq_zero.mp (Nat.le_zero.mp hl)
    subst hln
    simp [collapseSpacesF]
  | succ f ih =>
    intro l hl
    cases l with
    | nil => simp [collapseSpacesF]
    | cons c rest =>
      have hrl : rest.length ≤ f := by simp at hl; omega
      simp only [collapseSpacesF]
      by_cases hc : (c == ' ' && rest.head? == some ' ') = true
      · rw [if_pos hc]
        rw [List.chain'_cons']
        constructor
        · intro y hy
          rw [collapseSpacesF_head] at hy
          have hns := dropWhile_head (fun d => d == ' ') rest y hy
          simp only at hns
          simp [hns]
        · exact ih _ (le_trans (List.Sublist.length_le (List.dropWhile_sublist _)) hrl)
      · rw [if_neg hc]
        rw [List.chain'_cons']
        constructor
        · intro y hy
          rw [collapseSpacesF_head] at hy
          cases hcy : (c == ' ') with
          | false => simp
          | true =>
            cases hys : (y == ' ') with
            | false => simp [hys]
            | true =>
              exfalso
              apply hc
              have hy' : y = ' ' := eq_of_beq hys
              subst hy'
              have hhd : rest.head? = some ' ' := hy
              simp [hcy, hhd]
        · exact ih rest hrl

/-- A list with no two adjacent spaces is fixed by the collapse. -/
theorem collapseSpacesF_id :
    ∀ (f : Nat) (l : List Char),
      List.Chain' (fun a b => ((a == ' ') && (b == ' ')) = false) l →
      collapseSpacesF f l = l := by
  intro f
  induction f with
  | zero => intro l _; rfl
  | succ f ih =>
    intro l hch
    cases l with
    | nil => rfl
    | cons c rest =>
      simp only [collapseSpacesF]
      by_cases hc : (c == ' ' && rest.head? == some ' ') = true
      · exfalso
        simp at hc
        obtain ⟨hc1, hc2⟩ := hc
        cases rest with
        | nil => simp at hc2
        | cons r0 rs =>
          simp at hc2
          have hpair := (List.chain'_cons.mp hch).1
          rw [hc1, hc2] at hpair
          simp at hpair
      · rw [if_neg hc]
        rw [ih rest hch.tail]

/-!  ### Character provenance of the cleaning steps  -/

/-- The rest after a citation match is a sublist of the input. -/
theorem citeTail_sublist : ∀ (l t : List Char), citeTail l = some t → t.Sublist l := by
  intro l t h
  rw [citeTail.eq_def] at h
  split at h
  · rename_i c rest
    split at h
    · split at h
      · rename_i tail heq
        simp at h
        subst h
        have h1 : tail.Sublist (']' :: tail) := List.sublist_cons_self _ _
        have h2 : (']' :: tail).Sublist rest := heq ▸ List.dropWhile_sublist _
        have h3 : rest.Sublist (c :: rest) := List.sublist_cons_self _ _
        have h4 : (c :: rest).Sublist ('[' :: c :: rest) := List.sublist_cons_self _ _
        exact (((h1.trans h2).trans h3).trans h4)
      · exact absurd h (by simp)
    · exact absurd h (by simp)
  · exact absurd h (by simp)

/-- The citation pass only deletes characters. -/
theorem removeCitationsF_sublist :
    ∀ (f : Nat) (l : List Char), (removeCitationsF f l).Sublist l := by
  intro f
  induction f with
  | zero => intro l; exact List.Sublist.refl _
  | succ f ih =>
    intro l
    cases l with
    | nil => simp [removeCitationsF]
    | cons c rest =>
      simp only [removeCitationsF]
      cases hct : citeTail (c :: rest) with
      | some tail => exact (ih tail).trans (citeTail_sublist _ _ hct)
      | none => exact List.Sublist.cons₂ c (ih rest)

/-- The footnote pass only deletes characters. -/
theorem footGoF_sublist :
    ∀ (f : Nat) (p2 p1 : Option Char) (l : List Char),
      (footGoF f p2 p1 l).Sublist l := by
  intro f
  induction f with
  | zero => intro p2 p1 l; exact List.Sublist.refl _
  | succ f ih =>
    intro p2 p1 l
    cases l with
    | nil => simp [footGoF]
    | cons c rest =>
      simp only [footGoF]
      by_cases h1 : (c.isDigit && lookbehindOK p2 p1) = true
      · rw [if_pos h1]
        by_cases h2 : (((c :: rest).takeWhile Char.isDigit).length ≤ 3 &&
            lookaheadOK ((c :: rest).dropWhile Char.isDigit)) = true
        · rw [if_pos h2]
          exact (ih _ _ _).trans (List.dropWhile_sublist _)
        · rw [if_neg h2]
          exact List.Sublist.cons₂ c (ih _ _ rest)
      · rw [if_neg h1]
        exact List.Sublist.cons₂ c (ih _ _ rest)

/-- The space collapse only deletes characters. -/
theorem collapseSpacesF_sublist :
    ∀ (f : Nat) (l : List Char), (collapseSpacesF f l).Sublist l := by
  intro f
  induction f with
  | zero => intro l; exact List.Sublist.refl _
  | succ f ih =>
    intro l
    cases l with
    | nil => simp [collapseSpacesF]
    | cons c rest =>
      simp only [collapseSpacesF]
      by_cases hc : (c == ' ' && rest.head? == some ' ') = true
      · rw [if_pos hc]
        simp at hc
        rw [← hc.1]
        exact List.Sublist.cons₂ c ((ih _).trans (List.dropWhile_sublist _))
      · rw [if_neg hc]
        exact List.Sublist.cons₂ c (ih rest)

/-!  ### The structure of the normalizer's output  -/

/-- The split used by step 5 in terms of the fuel-indexed scanner. -/
theorem pySplitSeq_nn (t : List Char) :
    pySplitSeq "\n\n".data t = splitSeqF '\n' ['\n'] t.length t := rfl

/-- Every surviving paragraph of step 5 is non-empty, has non-whitespace
edges, occurs contiguously in step 4's output, and contains no two adjacent
newlines. -/
theorem paragraphJoin_pieces_facts (t : List Char) :
    ∀ q ∈ ((pySplitSeq "\n\n".data t).map pyStrip).filter (fun p => !p.isEmpty),
      q ≠ [] ∧ (∀ c, q.head? = some c → pySpace c = false) ∧
      (∀ c, q.getLast? = some c → pySpace c = false) ∧
      (∃ u v, t = u ++ q ++ v) ∧
      List.Chain' (fun a b => ((a == '\n') && (b == '\n')) = false) q := by
  intro q hq
  have hq1 := List.mem_filter.mp hq
  obtain ⟨q0, hq0, hqs⟩ := List.mem_map.mp hq1.1
  have hne : q ≠ [] := by
    intro hcon
    rw [hcon] at hq1
    simp at hq1
  subst hqs
  have hsplit : q0 ∈ splitSeqF '\n' ['\n'] t.length t := by
    rw [← pySplitSeq_nn]
    exact hq0
  refine ⟨hne, fun c hc => pyStrip_head q0 c hc, fun c hc => pyStrip_getLast q0 c hc, ?_, ?_⟩
  · obtain ⟨u0, v0, ht⟩ := split_mem_decomp '\n' ['\n'] t.length t q0 hsplit
    obtain ⟨u1, v1, hq0d⟩ := pyStrip_decomp q0
    refine ⟨u0 ++ u1, v1 ++ v0, ?_⟩
    rw [ht]
    conv_lhs => rw [hq0d]
    simp [List.append_assoc]
  · have hch0 := split_pieces_noNN t.length t le_rfl q0 hsplit
    obtain ⟨u1, v1, hq0d⟩ := pyStrip_decomp q0
    exact chain'_middle (hq0d ▸ hch0)

/-- A whitespace-free-by-`pySpace` character is not a newline. -/
theorem not_space_not_nl {c : Char} (h : pySpace c = false) : (c == '\n') = false := by
  cases hcn : (c == '\n') with
  | false => rfl
  | true =>
    have hc : c = '\n' := eq_of_beq hcn
    subst hc
    exact absurd h (by decide)

/-- A whitespace-free-by-`pySpace` character is not a space. -/
theorem not_space_not_sp {c : Char} (h : pySpace c = false) : (c == ' ') = false := by
  cases hcn : (c == ' ') with
  | false => rfl
  | true =>
    have hc : c = ' ' := eq_of_beq hcn
    subst hc
    exact absurd h (by decide)

/-- A decidable no-adjacent-pair scan, used to evaluate Chain' goals on
concrete lists. -/
def noAdj (p : Char → Bool) : List Char → Bool
  | [] => true
  | [_] => true
  | a :: b :: rest => (!(p a && p b)) && noAdj p (b :: rest)

theorem noAdj_chain' (p : Char → Bool) :
    ∀ l : List Char, noAdj p l = true →
      List.Chain' (fun a b => (p a && p b) = false) l
  | [] => fun _ => List.chain'_nil
  | [a] => fun _ => by simp
  | a :: b :: rest => fun h => by
      simp only [noAdj, Bool.and_eq_true, Bool.not_eq_true'] at h
      exact List.chain'_cons.mpr ⟨h.1, noAdj_chain' p (b :: rest) h.2⟩

/-- The normalizer's paragraph join contains no two adjacent newlines. -/
theorem paragraphJoin_noNN (t : List Char) :
    List.Chain' (fun a b => ((a == '\n') && (b == '\n')) = false) (paragraphJoin t) := by
  unfold paragraphJoin
  refine joinSep_chain' (fun c => c == '\n') sentinelSep
    (noAdj_chain' _ sentinelSep (by decide)) _ ?_
  intro q hq
  obtain ⟨hne, hh, hl, _, hch⟩ := paragraphJoin_pieces_facts t q hq
  exact ⟨hne, hch, fun c hc => not_space_not_nl (hh c hc),
    fun c hc => not_space_not_nl (hl c hc)⟩

/-- If step 4's output has no two adjacent spaces, neither has the join. -/
theorem paragraphJoin_noTwoSpace (t : List Char)
    (ht : List.Chain' (fun a b => ((a == ' ') && (b == ' ')) = false) t) :
    List.Chain' (fun a b => ((a == ' ') && (b == ' ')) = false) (paragraphJoin t) := by
  unfold paragraphJoin
  refine joinSep_chain' (fun c => c == ' ') sentinelSep
    (noAdj_chain' _ sentinelSep (by decide)) _ ?_
  intro q hq
  obtain ⟨hne, hh, hl, ⟨u, v, huv⟩, _⟩ := paragraphJoin_pieces_facts t q hq
  exact ⟨hne, chain'_middle (huv ▸ ht), fun c hc => not_space_not_sp (hh c hc),
    fun c hc => not_space_not_sp (hl c hc)⟩

/-- The normalizer's output is already stripped. -/
theorem paragraphJoin_stripped (t : List Char) :
    pyStrip (paragraphJoin t) = paragraphJoin t := by
  unfold paragraphJoin
  cases hP : ((pySplitSeq "\n\n".data t).map pyStrip).filter (fun p => !p.isEmpty) with
  | nil => rfl
  | cons q r =>
    have H := paragraphJoin_pieces_facts t
    apply pyStrip_id
    · exact joinSep_head_prop pySpace sentinelSep (q :: r)
        (fun x hx => ⟨(H x (by rw [hP]; exact hx)).1, (H x (by rw [hP]; exact hx)).2.1⟩)
    · exact joinSep_getLast_prop pySpace sentinelSep (q :: r)
        (fun x hx => ⟨(H x (by rw [hP]; exact hx)).1, (H x (by rw [hP]; exact hx)).2.2.1⟩)

/-- A stripped list without blank-line boundaries is fixed by step 5. -/
theorem paragraphJoin_fix (y : List Char)
    (hnn : List.Chain' (fun a b => ((a == '\n') && (b == '\n')) = false) y)
    (hst : pyStrip y = y) : paragraphJoin y = y := by
  unfold paragraphJoin
  rw [pySplitSeq_nn, splitNN_id y.length y le_rfl hnn]
  simp only [List.map_cons, List.map_nil, hst]
  by_cases hy : y = []
  · subst hy
    rfl
  · have hfil : ([y].filter (fun p => !p.isEmpty)) = [y] := by
      simp [List.isEmpty_iff, hy]
    rw [hfil]
    rfl

/-!  ### The normalizer's output is a fixpoint of steps 1, 4 and 5  -/

/-- The cleaned text contains no two adjacent newlines. -/
theorem cleanL_noNN (l : List Char) :
    List.Chain' (fun a b => ((a == '\n') && (b == '\n')) = false) (cleanL l) :=
  paragraphJoin_noNN _

/-- The cleaned text contains no two adjacent spaces. -/
theorem cleanL_noTwoSpace (l : List Char) :
    List.Chain' (fun a b => ((a == ' ') && (b == ' ')) = false) (cleanL l) :=
  paragraphJoin_noTwoSpace _ (collapseSpacesF_noTwo _ _ le_rfl)

/-- The cleaned text is stripped. -/
theorem cleanL_stripped (l : List Char) : pyStrip (cleanL l) = cleanL l :=
  paragraphJoin_stripped _

/-- The cleaned text contains no superscript digits: step 1 deletes them and
steps 2-5 only delete characters or insert sentinel characters. -/
theorem cleanL_noSup (l : List Char) :
    ∀ c ∈ cleanL l, isSuperscriptDigit c = false := by
  intro c hc
  rcases joinSep_mem sentinelSep _ c hc with hs | ⟨q, hq, hcq⟩
  · exact (by decide : ∀ x ∈ sentinelSep, isSuperscriptDigit x = false) c hs
  · obtain ⟨_, _, _, ⟨u, v, huv⟩, _⟩ := paragraphJoin_pieces_facts _ q hq
    have hct : c ∈ collapseSpaces (removeFootnotes (removeCitations (removeSuperscripts l))) := by
      rw [huv]
      simp [hcq]
    have h1 : c ∈ removeSuperscripts l :=
      (removeCitationsF_sublist _ _).subset
        ((footGoF_sublist _ _ _ _).subset
          ((collapseSpacesF_sublist _ _).subset hct))
    have h2 := List.mem_filter.mp h1
    simpa using h2.2

/-- C6 amended: the normalizer is idempotent on every input whose once-cleaned
text is a fixpoint of the citation-removal and footnote-removal passes; the
remaining steps (superscript removal, space collapse, paragraph split and
sentinel join) always fix the once-cleaned text.  (Without that proviso
idempotence fails: see the counterexample, where citation removal uncovers a
new bracketed citation.) -/
theorem clean_idempotent_of_fixed (x : String)
    (h2 : removeCitations (cleanForTTS x).data = (cleanForTTS x).data)
    (h3 : removeFootnotes (cleanForTTS x).data = (cleanForTTS x).data) :
    cleanForTTS (cleanForTTS x) = cleanForTTS x := by
  have h2' : removeCitations (cleanL x.data) = cleanL x.data := h2
  have h3' : removeFootnotes (cleanL x.data) = cleanL x.data := h3
  have l1 : removeSuperscripts (cleanL x.data) = cleanL x.data :=
    List.filter_eq_self.mpr (fun c hcmem => by simp [cleanL_noSup x.data c hcmem])
  have l4 : collapseSpaces (cleanL x.data) = cleanL x.data :=
    collapseSpacesF_id _ _ (cleanL_noTwoSpace x.data)
  have key : cleanL (cleanL x.data) = cleanL x.data := by
    show paragraphJoin (collapseSpaces (removeFootnotes (removeCitations
      (removeSuperscripts (cleanL x.data))))) = cleanL x.data
    rw [l1, h2', h3', l4]
    exact paragraphJoin_fix _ (cleanL_noNN x.data) (cleanL_stripped x.data)
  show String.mk (cleanL (cleanL x.data)) = String.mk (cleanL x.data)
  rw [key]

/-- C6 witness for the amended theorem: a paragraph text with a citation, a
glued footnote number and double spaces, whose cleaned form is a fixpoint of
both removal passes. -/
theorem clean_idempotent_of_fixed_witness :
    cleanForTTS (cleanForTTS "Hello  world [1] test.\n\nSecond paragraph three4 end.") =
      cleanForTTS "Hello  world [1] test.\n\nSecond paragraph three4 end." :=
  clean_idempotent_of_fixed "Hello  world [1] test.\n\nSecond paragraph three4 end."
    (by decide) (by decide)

end Narrio
